import Mathlib

/-!
Shallow embedding of the bech32 codec from `src/__init__.py` of the
doggystylez/bech32-conversions repository, together with theorems that check
the natural-language specification against it.

Python strings are modelled as `List Char` (all strings the codec accepts are
ASCII, where Python `str.lower` and `str.upper` act characterwise), Python
ints as `Nat` (every integer in the codec paths is non-negative; the single
`value < 0` test of `convertbits` can never fire on the wrapped types and is
noted where it occurs), and the Python `(None, None)` paired failure sentinel
as a pair of `Option`s.
-/

set_option maxRecDepth 1000000

namespace Bech32

/-- The 32-character alphabet `CHARSET` from the source. -/
def CHARSET : List Char := "qpzry9x8gf2tvdw0s3jn54khce6mua7l".toList

/-- The generator constants of `bech32_polymod`. -/
def generator : List Nat := [0x3b6a57b2, 0x26508e6d, 0x1ea119fa, 0x3d4233dd, 0x2a1462b3]

/-- One iteration of the `for value in values` loop of `bech32_polymod`:
`top = chk >> 25; chk = (chk & 0x1ffffff) << 5 ^ value;`
`for i in range(5): chk ^= generator[i] if ((top >> i) & 1) else 0`. -/
def polymodStep (chk value : Nat) : Nat :=
  let top := chk >>> 25
  let chk1 := ((chk &&& 0x1ffffff) <<< 5) ^^^ value
  (List.range 5).foldl
    (fun c i => c ^^^ (if (top >>> i) &&& 1 = 1 then generator.getD i 0 else 0)) chk1

/-- `bech32_polymod` from the source. -/
def bech32_polymod (values : List Nat) : Nat := values.foldl polymodStep 1

/-- `bech32_hrp_expand` from the source:
`[ord(x) >> 5 for x in hrp] + [0] + [ord(x) & 31 for x in hrp]`. -/
def bech32_hrp_expand (hrp : List Char) : List Nat :=
  hrp.map (fun x => x.toNat >>> 5) ++ [0] ++ hrp.map (fun x => x.toNat &&& 31)

/-- `bech32_verify_checksum` from the source. -/
def bech32_verify_checksum (hrp : List Char) (data : List Nat) : Bool :=
  bech32_polymod (bech32_hrp_expand hrp ++ data) == 1

/-- `bech32_create_checksum` from the source. -/
def bech32_create_checksum (hrp : List Char) (data : List Nat) : List Nat :=
  let values := bech32_hrp_expand hrp ++ data
  let pm := bech32_polymod (values ++ [0, 0, 0, 0, 0, 0]) ^^^ 1
  (List.range 6).map (fun i => (pm >>> (5 * (5 - i))) &&& 31)

/-- `bech32_encode` from the source. Indexing `CHARSET[d]` raises in Python
when `d` is at least 32, which no caller in the repository can trigger; it is
modelled by `getD` with an arbitrary default. -/
def bech32_encode (hrp : List Char) (data : List Nat) : List Char :=
  let combined := data ++ bech32_create_checksum hrp data
  hrp ++ '1' :: combined.map (fun d => CHARSET.getD d ' ')

/-- Python `str.lower`, characterwise; exact for the code points in [33,126],
the only characters on which `bech32_decode` ever uses it. -/
def pylower (c : Char) : Char :=
  if 65 ≤ c.toNat ∧ c.toNat ≤ 90 then Char.ofNat (c.toNat + 32) else c

/-- Python `str.upper`, characterwise; exact for the code points in [33,126]. -/
def pyupper (c : Char) : Char :=
  if 97 ≤ c.toNat ∧ c.toNat ≤ 122 then Char.ofNat (c.toNat - 32) else c

/-- Helper for `rfind`: index of the last occurrence of `c`, if any. -/
def rfindAux (c : Char) : List Char → Option Nat
  | [] => none
  | x :: xs =>
    match rfindAux c xs with
    | some i => some (i + 1)
    | none => if x = c then some 0 else none

/-- Python `str.rfind`: index of the last occurrence of `c`, or -1. -/
def rfind (l : List Char) (c : Char) : Int :=
  match rfindAux c l with
  | some i => (i : Int)
  | none => -1

/-- `bech32_decode` from the source, with the `(None, None)` sentinel modelled
as `(none, none)`. Python `CHARSET.find(x)` returns -1 for an absent
character, but it runs only after the `all(x in CHARSET ...)` guard, so it is
modelled by `List.indexOf` (which would return 32 on the same unreachable
inputs). -/
def bech32_decode (bech : List Char) : Option (List Char) × Option (List Nat) :=
  if (∃ x ∈ bech, x.toNat < 33 ∨ 126 < x.toNat) ∨
      (bech.map pylower ≠ bech ∧ bech.map pyupper ≠ bech) then (none, none)
  else
    let low := bech.map pylower
    let pos := rfind low '1'
    if pos < 1 ∨ 83 < pos ∨ (low.length : Int) < pos + 7 then (none, none)
    else
      let p := pos.toNat
      if ¬ (∀ x ∈ low.drop (p + 1), x ∈ CHARSET) then (none, none)
      else
        let hrp := low.take p
        let data := (low.drop (p + 1)).map (fun x => CHARSET.indexOf x)
        if bech32_verify_checksum hrp data then
          (some hrp, some (data.take (data.length - 6)))
        else (none, none)

/-- The inner `while bits >= tobits` loop of `convertbits`, returning the
emitted symbols and the final `bits`, computed with structural fuel so that
the kernel can evaluate it. Each iteration lowers `bits` by `tobits`, so
`bits` itself is always enough fuel when `tobits` is positive; the source
loop never terminates when `tobits = 0` (no caller in the repository passes
0), and the model stops in that case. -/
def whileEmitF (tobits maxv acc : Nat) : Nat → Nat → List Nat × Nat
  | 0, bits => ([], bits)
  | fuel + 1, bits =>
    if 0 < tobits ∧ tobits ≤ bits then
      let bits1 := bits - tobits
      let r := whileEmitF tobits maxv acc fuel bits1
      (((acc >>> bits1) &&& maxv) :: r.1, r.2)
    else ([], bits)

/-- The inner `while bits >= tobits` loop of `convertbits`. -/
def whileEmit (tobits maxv acc bits : Nat) : List Nat × Nat :=
  whileEmitF tobits maxv acc bits bits

/-- The `for value in data` loop of `convertbits`, carrying `(acc, bits)` and
returning the emitted symbols together with the final accumulator state.
The Python test `value < 0 or (value >> frombits)` loses its first disjunct
on `Nat`, where it can never fire. -/
def convGo (frombits tobits maxv max_acc : Nat) : List Nat → Nat → Nat → Option (List Nat × Nat × Nat)
  | [], acc, bits => some ([], acc, bits)
  | value :: rest, acc, bits =>
    if value >>> frombits ≠ 0 then none
    else
      let acc1 := ((acc <<< frombits) ||| value) &&& max_acc
      let er := whileEmit tobits maxv acc1 (bits + frombits)
      match convGo frombits tobits maxv max_acc rest acc1 er.2 with
      | none => none
      | some (ret, accF, bitsF) => some (er.1 ++ ret, accF, bitsF)

/-- `convertbits` from the source (its `pad` parameter defaults to `True` in
Python; callers here always pass it explicitly). -/
def convertbits (data : List Nat) (frombits tobits : Nat) (pad : Bool) : Option (List Nat) :=
  let maxv := (1 <<< tobits) - 1
  let max_acc := (1 <<< (frombits + tobits - 1)) - 1
  match convGo frombits tobits maxv max_acc data 0 0 with
  | none => none
  | some (ret, acc, bits) =>
    if pad then
      if bits ≠ 0 then some (ret ++ [(acc <<< (tobits - bits)) &&& maxv]) else some ret
    else if frombits ≤ bits ∨ ((acc <<< (tobits - bits)) &&& maxv) ≠ 0 then none
    else some ret

/-- The witness-address `decode` from the source. The source asserts
`data is not None` after the HRP comparison; the model returns the failure
sentinel on that (unreachable) branch, and `decode_total_and_assert_safe`
proves it unreachable. `data[0]` is modelled by `headD 0`; Python reaches it
only after `len(decoded) >= 2`, which forces `data` to be non-empty. -/
def decode (hrp addr : List Char) : Option Nat × Option (List Nat) :=
  let r := bech32_decode addr
  if r.1 ≠ some hrp then (none, none)
  else
    match r.2 with
    | none => (none, none)
    | some data =>
      match convertbits (data.drop 1) 5 8 false with
      | none => (none, none)
      | some decoded =>
        if decoded.length < 2 ∨ 40 < decoded.length then (none, none)
        else if 16 < data.headD 0 then (none, none)
        else if data.headD 0 = 0 ∧ decoded.length ≠ 20 ∧ decoded.length ≠ 32 then (none, none)
        else (some (data.headD 0), some decoded)

/-- The witness-address `encode` from the source, including its defensive
self-decode check. -/
def encode (hrp : List Char) (witver : Nat) (witprog : List Nat) : Option (List Char) :=
  match convertbits witprog 8 5 true with
  | none => none
  | some five_bit_witprog =>
    let ret := bech32_encode hrp (witver :: five_bit_witprog)
    if decode hrp ret = (none, none) then none else some ret

/-- Specification-side view of the conditional generator XOR performed by the
`for i in range(5)` loop of `bech32_polymod` on a given `top` value. -/
def gsel (t : Nat) : Nat :=
  (if t &&& 1 = 1 then 0x3b6a57b2 else 0) ^^^
    ((if (t >>> 1) &&& 1 = 1 then 0x26508e6d else 0) ^^^
      ((if (t >>> 2) &&& 1 = 1 then 0x1ea119fa else 0) ^^^
        ((if (t >>> 3) &&& 1 = 1 then 0x3d4233dd else 0) ^^^
          (if (t >>> 4) &&& 1 = 1 then 0x2a1462b3 else 0))))

/-- Specification-side view of the part of `polymodStep` that depends only on
the running checksum: `polymodStep chk v = polyL chk ^^^ v`, and `polyL` is
GF(2)-linear. -/
def polyL (chk : Nat) : Nat := ((chk &&& 0x1ffffff) <<< 5) ^^^ gsel (chk >>> 25)

/-- Value of a list of `w`-bit symbols read as one big MSB-first number. -/
def val (w : Nat) : List Nat → Nat
  | [] => 0
  | x :: xs => x * 2 ^ (w * xs.length) + val w xs

/-! ### Generic bit-manipulation lemmas -/

theorem xor_mod_two_pow (a b n : Nat) : (a ^^^ b) % 2 ^ n = a % 2 ^ n ^^^ b % 2 ^ n := by
  apply Nat.eq_of_testBit_eq
  intro i
  simp only [Nat.testBit_mod_two_pow, Nat.testBit_xor]
  by_cases h : i < n <;> simp [h]

theorem xor_shiftLeft (a b k : Nat) : (a ^^^ b) <<< k = a <<< k ^^^ b <<< k := by
  apply Nat.eq_of_testBit_eq
  intro i
  simp only [Nat.testBit_shiftLeft, Nat.testBit_xor]
  by_cases h : i ≥ k <;> simp [h]

theorem xor_shiftRight (a b k : Nat) : (a ^^^ b) >>> k = a >>> k ^^^ b >>> k := by
  apply Nat.eq_of_testBit_eq
  intro i
  simp [Nat.testBit_shiftRight, Nat.testBit_xor]

theorem xor_left_cancel {a b c : Nat} (h : a ^^^ b = a ^^^ c) : b = c := by
  have h2 := congrArg (fun x => a ^^^ x) h
  simpa only [← Nat.xor_assoc, Nat.xor_self, Nat.zero_xor] using h2

theorem xor_right_cancel {a b c : Nat} (h : a ^^^ c = b ^^^ c) : a = b := by
  have h2 := congrArg (fun x => x ^^^ c) h
  simpa only [Nat.xor_assoc, Nat.xor_self, Nat.xor_zero] using h2

theorem shiftLeft_xor_low {b k : Nat} (a : Nat) (h : b < 2 ^ k) :
    a <<< k ^^^ b = a * 2 ^ k + b := by
  apply Nat.eq_of_testBit_eq
  intro i
  rw [Nat.testBit_xor, Nat.testBit_shiftLeft, mul_comm a, Nat.testBit_mul_pow_two_add a h]
  by_cases hik : i < k
  · simp [hik, Nat.le_of_lt_succ, show ¬ i ≥ k from not_le.mpr hik]
  · have hb : b < 2 ^ i :=
      lt_of_lt_of_le h (Nat.pow_le_pow_right (by norm_num) (not_lt.mp hik))
    simp [hik, Nat.testBit_lt_two_pow hb, show i ≥ k from not_lt.mp hik]

theorem shiftLeft_or_low {b k : Nat} (a : Nat) (h : b < 2 ^ k) :
    a <<< k ||| b = a * 2 ^ k + b := by
  apply Nat.eq_of_testBit_eq
  intro i
  rw [Nat.testBit_or, Nat.testBit_shiftLeft, mul_comm a, Nat.testBit_mul_pow_two_add a h]
  by_cases hik : i < k
  · simp [hik, show ¬ i ≥ k from not_le.mpr hik]
  · have hb : b < 2 ^ i :=
      lt_of_lt_of_le h (Nat.pow_le_pow_right (by norm_num) (not_lt.mp hik))
    simp [hik, Nat.testBit_lt_two_pow hb, show i ≥ k from not_lt.mp hik]

/-! ### The polymod step as a GF(2)-affine map -/

theorem xor_left_comm (a b c : Nat) : a ^^^ (b ^^^ c) = b ^^^ (a ^^^ c) := by
  rw [← Nat.xor_assoc, Nat.xor_comm a b, Nat.xor_assoc]

theorem polymodStep_eq (c v : Nat) : polymodStep c v = polyL c ^^^ v := by
  simp only [polymodStep, show List.range 5 = [0, 1, 2, 3, 4] from rfl,
    List.foldl_cons, List.foldl_nil, generator, List.getD_cons_zero, List.getD_cons_succ]
  simp only [polyL, gsel, Nat.shiftRight_zero]
  ac_rfl

theorem and_one_cases (x : Nat) : x &&& 1 = 0 ∨ x &&& 1 = 1 := by
  rw [Nat.and_one_is_mod]
  omega

theorem if_xor_bit (x y g : Nat) (hx : x = 0 ∨ x = 1) (hy : y = 0 ∨ y = 1) :
    (if x ^^^ y = 1 then g else 0) =
      (if x = 1 then g else 0) ^^^ (if y = 1 then g else 0) := by
  rcases hx with hx | hx <;> rcases hy with hy | hy <;> subst hx <;> subst hy <;> simp

theorem gsel_linear (a b : Nat) : gsel (a ^^^ b) = gsel a ^^^ gsel b := by
  have e : ∀ i, ((a ^^^ b) >>> i) &&& 1 = ((a >>> i) &&& 1) ^^^ ((b >>> i) &&& 1) := by
    intro i
    rw [xor_shiftRight, Nat.and_xor_distrib_right]
  have e0 : (a ^^^ b) &&& 1 = (a &&& 1) ^^^ (b &&& 1) := Nat.and_xor_distrib_right
  unfold gsel
  rw [e0, e 1, e 2, e 3, e 4]
  rw [if_xor_bit _ _ _ (and_one_cases a) (and_one_cases b),
    if_xor_bit _ _ _ (and_one_cases (a >>> 1)) (and_one_cases (b >>> 1)),
    if_xor_bit _ _ _ (and_one_cases (a >>> 2)) (and_one_cases (b >>> 2)),
    if_xor_bit _ _ _ (and_one_cases (a >>> 3)) (and_one_cases (b >>> 3)),
    if_xor_bit _ _ _ (and_one_cases (a >>> 4)) (and_one_cases (b >>> 4))]
  ac_rfl

theorem polyL_linear (a b : Nat) : polyL (a ^^^ b) = polyL a ^^^ polyL b := by
  unfold polyL
  rw [Nat.and_xor_distrib_right, xor_shiftLeft, xor_shiftRight, gsel_linear]
  ac_rfl

theorem mask25 : (0x1ffffff : Nat) = 2 ^ 25 - 1 := by norm_num

theorem and_mask25 (c : Nat) : c &&& 0x1ffffff = c % 2 ^ 25 := by
  rw [mask25, Nat.and_pow_two_sub_one_eq_mod]

theorem and31 (c : Nat) : c &&& 31 = c % 32 := by
  rw [show (31 : Nat) = 2 ^ 5 - 1 from rfl, Nat.and_pow_two_sub_one_eq_mod]

theorem gsel_lt (t : Nat) : gsel t < 2 ^ 30 := by
  have h : ∀ g : Nat, g < 2 ^ 30 → ∀ x : Nat, (if x = 1 then g else 0) < 2 ^ 30 := by
    intro g hg x
    split
    · exact hg
    · positivity
  unfold gsel
  exact Nat.xor_lt_two_pow (h _ (by norm_num) _)
    (Nat.xor_lt_two_pow (h _ (by norm_num) _)
      (Nat.xor_lt_two_pow (h _ (by norm_num) _)
        (Nat.xor_lt_two_pow (h _ (by norm_num) _) (h _ (by norm_num) _))))

theorem polyL_lt (c : Nat) : polyL c < 2 ^ 30 := by
  unfold polyL
  apply Nat.xor_lt_two_pow _ (gsel_lt _)
  rw [and_mask25, Nat.shiftLeft_eq]
  have h : c % 2 ^ 25 < 2 ^ 25 := Nat.mod_lt _ (by norm_num)
  calc c % 2 ^ 25 * 2 ^ 5 < 2 ^ 25 * 2 ^ 5 :=
        (Nat.mul_lt_mul_right (by norm_num)).mpr h
    _ = 2 ^ 30 := by norm_num

theorem gsel_zero : gsel 0 = 0 := by decide

theorem polyL_zero : polyL 0 = 0 := by decide

theorem polyL_small {v : Nat} (h : v < 2 ^ 25) : polyL v = v <<< 5 := by
  unfold polyL
  rw [and_mask25, Nat.mod_eq_of_lt h, Nat.shiftRight_eq_div_pow,
    Nat.div_eq_of_lt h, gsel_zero, Nat.xor_zero]

/-- Iterating `polyL`, innermost first. -/
def polyLn : Nat → Nat → Nat
  | 0, x => x
  | n + 1, x => polyLn n (polyL x)

theorem foldl_polymodStep_xor (l : List Nat) (a b : Nat) :
    l.foldl polymodStep (a ^^^ b) = l.foldl polymodStep a ^^^ polyLn l.length b := by
  induction l generalizing a b with
  | nil => simp [polyLn]
  | cons v rest ih =>
    have hstep : polymodStep (a ^^^ b) v = polymodStep a v ^^^ polyL b := by
      rw [polymodStep_eq, polymodStep_eq, polyL_linear]
      ac_rfl
    simp only [List.foldl_cons, hstep, ih, List.length_cons, polyLn]

theorem polymodStep_zero (c : Nat) : polymodStep c 0 = polyL c := by
  rw [polymodStep_eq, Nat.xor_zero]

theorem foldl_zeros6 (c : Nat) :
    List.foldl polymodStep c [0, 0, 0, 0, 0, 0] = polyLn 6 c := by
  show polymodStep (polymodStep (polymodStep (polymodStep (polymodStep
    (polymodStep c 0) 0) 0) 0) 0) 0 = _
  rw [polymodStep_zero, polymodStep_zero, polymodStep_zero, polymodStep_zero,
    polymodStep_zero, polymodStep_zero]
  rfl

theorem polyLn6_lt (c : Nat) : polyLn 6 c < 2 ^ 30 := by
  show polyL (polyL (polyL (polyL (polyL (polyL c))))) < 2 ^ 30
  exact polyL_lt _

theorem shift_down (p k j : Nat) (h : j + 5 = k) :
    (p >>> k) <<< 5 ^^^ ((p >>> j) &&& 31) = p >>> j := by
  rw [and31, shiftLeft_xor_low _ (Nat.mod_lt _ (by norm_num) : (p >>> j) % 32 < 2 ^ 5)]
  have hk : p >>> k = (p >>> j) / 2 ^ 5 := by
    rw [Nat.shiftRight_eq_div_pow, Nat.shiftRight_eq_div_pow, Nat.div_div_eq_div_mul,
      ← pow_add, h]
  have hdm := Nat.div_add_mod (p >>> j) 32
  rw [hk]
  have h32 : (2 : Nat) ^ 5 = 32 := by norm_num
  rw [h32]
  omega

theorem foldl_slices (p : Nat) (hp : p < 2 ^ 30) :
    List.foldl polymodStep 0
      [(p >>> 25) &&& 31, (p >>> 20) &&& 31, (p >>> 15) &&& 31,
        (p >>> 10) &&& 31, (p >>> 5) &&& 31, (p >>> 0) &&& 31] = p := by
  have hsm : ∀ j : Nat, 5 ≤ j → p >>> j < 2 ^ 25 := by
    intro j hj
    rw [Nat.shiftRight_eq_div_pow]
    apply Nat.div_lt_of_lt_mul
    calc p < 2 ^ 30 := hp
      _ ≤ 2 ^ (j + 25) := Nat.pow_le_pow_right (by norm_num) (by omega)
      _ = 2 ^ j * 2 ^ 25 := by rw [pow_add]
  have h25 : (p >>> 25) &&& 31 = p >>> 25 := by
    rw [and31, Nat.mod_eq_of_lt]
    rw [Nat.shiftRight_eq_div_pow]
    apply Nat.div_lt_of_lt_mul
    calc p < 2 ^ 30 := hp
      _ = 2 ^ 25 * 32 := by norm_num
  have h25lt : p >>> 25 < 2 ^ 25 := by
    calc p >>> 25 < 2 ^ 5 := by
          rw [← h25, and31]
          exact Nat.mod_lt _ (by norm_num)
      _ ≤ 2 ^ 25 := by norm_num
  have s1 : polymodStep 0 ((p >>> 25) &&& 31) = p >>> 25 := by
    rw [polymodStep_eq 0, polyL_zero, Nat.zero_xor, h25]
  have s2 : polymodStep (p >>> 25) ((p >>> 20) &&& 31) = p >>> 20 := by
    rw [polymodStep_eq, polyL_small h25lt, shift_down p 25 20 rfl]
  have s3 : polymodStep (p >>> 20) ((p >>> 15) &&& 31) = p >>> 15 := by
    rw [polymodStep_eq, polyL_small (hsm 20 (by norm_num)), shift_down p 20 15 rfl]
  have s4 : polymodStep (p >>> 15) ((p >>> 10) &&& 31) = p >>> 10 := by
    rw [polymodStep_eq, polyL_small (hsm 15 (by norm_num)), shift_down p 15 10 rfl]
  have s5 : polymodStep (p >>> 10) ((p >>> 5) &&& 31) = p >>> 5 := by
    rw [polymodStep_eq, polyL_small (hsm 10 (by norm_num)), shift_down p 10 5 rfl]
  have s6 : polymodStep (p >>> 5) ((p >>> 0) &&& 31) = p >>> 0 := by
    rw [polymodStep_eq, polyL_small (hsm 5 (by norm_num)), shift_down p 5 0 rfl]
  show polymodStep (polymodStep (polymodStep (polymodStep (polymodStep
    (polymodStep 0 ((p >>> 25) &&& 31)) ((p >>> 20) &&& 31)) ((p >>> 15) &&& 31))
      ((p >>> 10) &&& 31)) ((p >>> 5) &&& 31)) ((p >>> 0) &&& 31) = p
  rw [s1, s2, s3, s4, s5, s6, Nat.shiftRight_zero]

theorem create_checksum_eq (hrp : List Char) (data : List Nat) :
    bech32_create_checksum hrp data =
      [((polyLn 6 (bech32_polymod (bech32_hrp_expand hrp ++ data)) ^^^ 1) >>> 25) &&& 31,
        ((polyLn 6 (bech32_polymod (bech32_hrp_expand hrp ++ data)) ^^^ 1) >>> 20) &&& 31,
        ((polyLn 6 (bech32_polymod (bech32_hrp_expand hrp ++ data)) ^^^ 1) >>> 15) &&& 31,
        ((polyLn 6 (bech32_polymod (bech32_hrp_expand hrp ++ data)) ^^^ 1) >>> 10) &&& 31,
        ((polyLn 6 (bech32_polymod (bech32_hrp_expand hrp ++ data)) ^^^ 1) >>> 5) &&& 31,
        ((polyLn 6 (bech32_polymod (bech32_hrp_expand hrp ++ data)) ^^^ 1) >>> 0) &&& 31] := by
  simp only [bech32_create_checksum]
  rw [show bech32_polymod ((bech32_hrp_expand hrp ++ data) ++ [0, 0, 0, 0, 0, 0]) =
        polyLn 6 (bech32_polymod (bech32_hrp_expand hrp ++ data)) by
      unfold bech32_polymod
      rw [List.foldl_append, foldl_zeros6]]
  rw [show List.range 6 = [0, 1, 2, 3, 4, 5] from rfl]
  simp only [List.map_cons, List.map_nil]

/-- Core checksum identity: appending the created checksum always makes
verification return the residue 1. -/
theorem verify_create (hrp : List Char) (data : List Nat) :
    bech32_verify_checksum hrp (data ++ bech32_create_checksum hrp data) = true := by
  unfold bech32_verify_checksum
  rw [beq_iff_eq]
  rw [create_checksum_eq]
  set c0 := bech32_polymod (bech32_hrp_expand hrp ++ data) with hc0
  set p := polyLn 6 c0 ^^^ 1 with hp
  have hplt : p < 2 ^ 30 := Nat.xor_lt_two_pow (polyLn6_lt c0) (by norm_num)
  rw [← List.append_assoc]
  show List.foldl polymodStep 1 _ = 1
  rw [List.foldl_append]
  rw [show List.foldl polymodStep 1 (bech32_hrp_expand hrp ++ data) = c0 from rfl]
  show List.foldl polymodStep c0
      [(p >>> 25) &&& 31, (p >>> 20) &&& 31, (p >>> 15) &&& 31,
        (p >>> 10) &&& 31, (p >>> 5) &&& 31, (p >>> 0) &&& 31] = 1
  rw [show c0 = 0 ^^^ c0 from (Nat.zero_xor c0).symm, foldl_polymodStep_xor]
  show List.foldl polymodStep 0
      [(p >>> 25) &&& 31, (p >>> 20) &&& 31, (p >>> 15) &&& 31,
        (p >>> 10) &&& 31, (p >>> 5) &&& 31, (p >>> 0) &&& 31] ^^^ polyLn 6 c0 = 1
  rw [foldl_slices p hplt, hp]
  have hps : (polyLn 6 c0 ^^^ 1) ^^^ polyLn 6 c0 = (polyLn 6 c0 ^^^ polyLn 6 c0) ^^^ 1 := by
    ac_rfl
  rw [hps, Nat.xor_self, Nat.zero_xor]

/-! ### Injectivity of the polymod step, giving single-symbol error detection -/

theorem gsel_mod32_inj :
    ∀ t1 : Nat, t1 < 32 → ∀ t2 : Nat, t2 < 32 → gsel t1 % 32 = gsel t2 % 32 → t1 = t2 := by
  decide

theorem shiftRight25_lt {c : Nat} (h : c < 2 ^ 30) : c >>> 25 < 32 := by
  rw [Nat.shiftRight_eq_div_pow]
  apply Nat.div_lt_of_lt_mul
  calc c < 2 ^ 30 := h
    _ = 2 ^ 25 * 32 := by norm_num

theorem polyL_inj {c1 c2 : Nat} (h1 : c1 < 2 ^ 30) (h2 : c2 < 2 ^ 30)
    (h : polyL c1 = polyL c2) : c1 = c2 := by
  unfold polyL at h
  have hmod := congrArg (fun x => x % 32) h
  simp only at hmod
  rw [show (32 : Nat) = 2 ^ 5 from rfl, xor_mod_two_pow, xor_mod_two_pow] at hmod
  rw [Nat.shiftLeft_eq, Nat.shiftLeft_eq, Nat.mul_mod_left, Nat.mul_mod_left] at hmod
  rw [Nat.zero_xor, Nat.zero_xor] at hmod
  have ht : c1 >>> 25 = c2 >>> 25 :=
    gsel_mod32_inj _ (shiftRight25_lt h1) _ (shiftRight25_lt h2) (by
      rw [show (2 : Nat) ^ 5 = 32 from rfl] at hmod
      exact hmod)
  rw [ht] at h
  have hl : (c1 &&& 0x1ffffff) <<< 5 = (c2 &&& 0x1ffffff) <<< 5 := xor_right_cancel h
  rw [Nat.shiftLeft_eq, Nat.shiftLeft_eq] at hl
  have hl2 : c1 &&& 0x1ffffff = c2 &&& 0x1ffffff :=
    Nat.eq_of_mul_eq_mul_right (by norm_num) hl
  rw [and_mask25, and_mask25] at hl2
  have hd1 := Nat.div_add_mod c1 (2 ^ 25)
  have hd2 := Nat.div_add_mod c2 (2 ^ 25)
  rw [Nat.shiftRight_eq_div_pow, Nat.shiftRight_eq_div_pow] at ht
  omega

theorem polymodStep_lt {v : Nat} (c : Nat) (hv : v < 32) : polymodStep c v < 2 ^ 30 := by
  rw [polymodStep_eq]
  exact Nat.xor_lt_two_pow (polyL_lt c) (lt_of_lt_of_le hv (by norm_num))

theorem polymodStep_inj {c1 c2 v : Nat} (h1 : c1 < 2 ^ 30) (h2 : c2 < 2 ^ 30)
    (hne : c1 ≠ c2) : polymodStep c1 v ≠ polymodStep c2 v := by
  intro h
  rw [polymodStep_eq, polymodStep_eq] at h
  exact hne (polyL_inj h1 h2 (xor_right_cancel h))

theorem foldl_polymodStep_inj :
    ∀ l : List Nat, (∀ x ∈ l, x < 32) → ∀ c1 c2 : Nat, c1 < 2 ^ 30 → c2 < 2 ^ 30 →
      c1 ≠ c2 → l.foldl polymodStep c1 ≠ l.foldl polymodStep c2 := by
  intro l
  induction l with
  | nil => intro _ c1 c2 _ _ hne; exact hne
  | cons v rest ih =>
    intro hlt c1 c2 h1 h2 hne
    simp only [List.foldl_cons]
    exact ih (fun x hx => hlt x (List.mem_cons_of_mem _ hx))
      _ _ (polymodStep_lt c1 (hlt v (List.mem_cons_self _ _)))
      (polymodStep_lt c2 (hlt v (List.mem_cons_self _ _)))
      (polymodStep_inj h1 h2 hne)

/-- Changing one symbol (both old and new below 32, as all charset symbols are)
in the tail of a polymod input always changes the polymod value. -/
theorem polymod_single_change (pre suf : List Nat) {v w : Nat} (hv : v < 32) (hw : w < 32)
    (hsuf : ∀ x ∈ suf, x < 32) (hne : v ≠ w) :
    bech32_polymod (pre ++ v :: suf) ≠ bech32_polymod (pre ++ w :: suf) := by
  unfold bech32_polymod
  rw [List.foldl_append, List.foldl_append]
  simp only [List.foldl_cons]
  apply foldl_polymodStep_inj suf hsuf _ _ (polymodStep_lt _ hv) (polymodStep_lt _ hw)
  intro h
  rw [polymodStep_eq, polymodStep_eq] at h
  exact hne (xor_left_cancel h)

/-! ### Characterization of convertbits via MSB-first symbol values -/

theorem val_nil (w : Nat) : val w [] = 0 := rfl

theorem val_cons (w x : Nat) (xs : List Nat) :
    val w (x :: xs) = x * 2 ^ (w * xs.length) + val w xs := rfl

theorem val_append (w : Nat) (l1 l2 : List Nat) :
    val w (l1 ++ l2) = val w l1 * 2 ^ (w * l2.length) + val w l2 := by
  induction l1 with
  | nil => simp [val]
  | cons x xs ih =>
    simp only [List.cons_append, val_cons, List.length_append, ih, List.length_cons]
    rw [Nat.mul_add, pow_add, Nat.add_mul]
    ring

theorem val_lt (w : Nat) : ∀ l : List Nat, (∀ x ∈ l, x < 2 ^ w) →
    val w l < 2 ^ (w * l.length) := by
  intro l
  induction l with
  | nil => simp [val]
  | cons x xs ih =>
    intro h
    rw [val_cons, List.length_cons, Nat.mul_add, Nat.mul_one, pow_add]
    have hx : x < 2 ^ w := h x (List.mem_cons_self _ _)
    have hxs : val w xs < 2 ^ (w * xs.length) :=
      ih (fun y hy => h y (List.mem_cons_of_mem _ hy))
    calc x * 2 ^ (w * xs.length) + val w xs
        ≤ (2 ^ w - 1) * 2 ^ (w * xs.length) + val w xs := by
          have : x ≤ 2 ^ w - 1 := by omega
          exact Nat.add_le_add_right (Nat.mul_le_mul_right _ this) _
      _ < (2 ^ w - 1) * 2 ^ (w * xs.length) + 2 ^ (w * xs.length) := by omega
      _ = 2 ^ w * 2 ^ (w * xs.length) := by
          have h1 : (1 : Nat) ≤ 2 ^ w := Nat.one_le_two_pow
          have h2 : 2 ^ (w * xs.length) ≤ 2 ^ w * 2 ^ (w * xs.length) :=
            Nat.le_mul_of_pos_left _ (by positivity)
          rw [Nat.sub_mul, Nat.one_mul]
          omega
      _ = 2 ^ (w * xs.length) * 2 ^ w := by ring

theorem val_inj (w : Nat) : ∀ l1 l2 : List Nat, l1.length = l2.length →
    (∀ x ∈ l1, x < 2 ^ w) → (∀ x ∈ l2, x < 2 ^ w) → val w l1 = val w l2 → l1 = l2 := by
  intro l1
  induction l1 with
  | nil =>
    intro l2 hlen _ _ _
    cases l2 with
    | nil => rfl
    | cons y ys => simp at hlen
  | cons x xs ih =>
    intro l2 hlen h1 h2 hval
    cases l2 with
    | nil => simp at hlen
    | cons y ys =>
      simp only [List.length_cons] at hlen
      have hlen2 : xs.length = ys.length := by omega
      rw [val_cons, val_cons, hlen2] at hval
      set P := 2 ^ (w * ys.length) with hP
      have hx : val w xs < P := by
        rw [hP, ← hlen2]
        exact val_lt w xs (fun z hz => h1 z (List.mem_cons_of_mem _ hz))
      have hy : val w ys < P := by
        rw [hP]
        exact val_lt w ys (fun z hz => h2 z (List.mem_cons_of_mem _ hz))
      have hPpos : 0 < P := by positivity
      have hxy : x = y := by
        have d1 : (x * P + val w xs) / P = x := by
          rw [mul_comm, Nat.mul_add_div hPpos, Nat.div_eq_of_lt hx, Nat.add_zero]
        have d2 : (y * P + val w ys) / P = y := by
          rw [mul_comm, Nat.mul_add_div hPpos, Nat.div_eq_of_lt hy, Nat.add_zero]
        rw [← d1, ← d2, hval]
      subst hxy
      have hvs : val w xs = val w ys := by omega
      rw [ih ys hlen2 (fun z hz => h1 z (List.mem_cons_of_mem _ hz))
        (fun z hz => h2 z (List.mem_cons_of_mem _ hz)) hvs]

theorem whileEmitF_zero (t m a bits : Nat) : whileEmitF t m a 0 bits = ([], bits) := rfl

theorem whileEmitF_succ (t m a fuel bits : Nat) :
    whileEmitF t m a (fuel + 1) bits =
      if 0 < t ∧ t ≤ bits then
        (((a >>> (bits - t)) &&& m) :: (whileEmitF t m a fuel (bits - t)).1,
          (whileEmitF t m a fuel (bits - t)).2)
      else ([], bits) := rfl

theorem whileEmitF_congr (t m a : Nat) :
    ∀ f1 f2 bits : Nat, bits ≤ f1 → bits ≤ f2 →
      whileEmitF t m a f1 bits = whileEmitF t m a f2 bits := by
  intro f1
  induction f1 with
  | zero =>
    intro f2 bits h1 h2
    have hb : bits = 0 := by omega
    subst hb
    cases f2 with
    | zero => rfl
    | succ g =>
      rw [whileEmitF_zero, whileEmitF_succ, if_neg (by omega)]
  | succ g1 ih =>
    intro f2 bits h1 h2
    cases f2 with
    | zero =>
      have hb : bits = 0 := by omega
      subst hb
      rw [whileEmitF_zero, whileEmitF_succ, if_neg (by omega)]
    | succ g2 =>
      rw [whileEmitF_succ, whileEmitF_succ]
      by_cases hg : 0 < t ∧ t ≤ bits
      · rw [if_pos hg, if_pos hg, ih g2 (bits - t) (by omega) (by omega)]
      · rw [if_neg hg, if_neg hg]

theorem whileEmit_step {t bits : Nat} (m acc : Nat) (ht : 0 < t) (hle : t ≤ bits) :
    whileEmit t m acc bits =
      (((acc >>> (bits - t)) &&& m) :: (whileEmit t m acc (bits - t)).1,
        (whileEmit t m acc (bits - t)).2) := by
  cases bits with
  | zero => omega
  | succ b =>
    show whileEmitF t m acc (b + 1) (b + 1) = _
    rw [whileEmitF_succ, if_pos ⟨ht, hle⟩,
      whileEmitF_congr t m acc b (b + 1 - t) (b + 1 - t) (by omega) le_rfl]
    rfl

theorem whileEmit_stop {t bits : Nat} (m acc : Nat) (h : bits < t) :
    whileEmit t m acc bits = ([], bits) := by
  cases bits with
  | zero => rfl
  | succ b =>
    show whileEmitF t m acc (b + 1) (b + 1) = _
    rw [whileEmitF_succ, if_neg (by omega)]

theorem whileEmit_spec (t m acc : Nat) (ht : 0 < t) (hm : m = 2 ^ t - 1) :
    ∀ bits : Nat,
      (whileEmit t m acc bits).2 = bits % t ∧
      (whileEmit t m acc bits).1.length = bits / t ∧
      (∀ x ∈ (whileEmit t m acc bits).1, x < 2 ^ t) ∧
      val t (whileEmit t m acc bits).1 = (acc % 2 ^ bits) / 2 ^ (bits % t) := by
  intro bits
  induction bits using Nat.strong_induction_on with
  | _ bits ih =>
    by_cases hlt : bits < t
    · rw [whileEmit_stop m acc hlt]
      refine ⟨(Nat.mod_eq_of_lt hlt).symm, by simp [Nat.div_eq_of_lt hlt], by simp, ?_⟩
      rw [Nat.mod_eq_of_lt hlt, val_nil]
      exact (Nat.div_eq_of_lt (Nat.mod_lt _ (by positivity))).symm
    · push_neg at hlt
      rw [whileEmit_step m acc ht hlt]
      set b1 := bits - t with hb1
      obtain ⟨ih2, ihlen, ihbound, ihval⟩ := ih b1 (by omega)
      have hbits : bits = b1 + t := by omega
      have hmod : b1 % t = bits % t := by rw [hbits, Nat.add_mod_right]
      have hr : bits % t ≤ b1 := hmod ▸ Nat.mod_le b1 t
      have hhead : (acc >>> b1) &&& m = acc / 2 ^ b1 % 2 ^ t := by
        rw [hm, Nat.and_pow_two_sub_one_eq_mod, Nat.shiftRight_eq_div_pow]
      refine ⟨?_, ?_, ?_, ?_⟩
      · show (whileEmit t m acc b1).2 = bits % t
        rw [ih2, hmod]
      · show (whileEmit t m acc b1).1.length + 1 = bits / t
        rw [ihlen, hbits, Nat.add_div_right _ ht]
      · intro x hx
        rcases List.mem_cons.mp hx with hx | hx
        · rw [hx, hhead]
          exact Nat.mod_lt _ (by positivity)
        · exact ihbound x hx
      · rw [val_cons, ihlen, ihval, hhead, hmod]
        have htl : t * (b1 / t) = b1 - bits % t := by
          have := Nat.div_add_mod b1 t
          omega
        have hbt : b1 + t = bits := by omega
        have hsplit : acc % 2 ^ bits = (acc / 2 ^ b1 % 2 ^ t) * 2 ^ b1 + acc % 2 ^ b1 := by
          have h1 : (2 : Nat) ^ bits = 2 ^ b1 * 2 ^ t := by rw [← pow_add, hbt]
          rw [h1]
          conv_lhs => rw [← Nat.div_add_mod (acc % (2 ^ b1 * 2 ^ t)) (2 ^ b1)]
          rw [Nat.mod_mul_right_div_self, Nat.mod_mod_of_dvd _ ⟨2 ^ t, rfl⟩]
          ring
        rw [hsplit, htl]
        have key : (acc / 2 ^ b1 % 2 ^ t * 2 ^ b1 + acc % 2 ^ b1) / 2 ^ (bits % t) =
            acc / 2 ^ b1 % 2 ^ t * 2 ^ (b1 - bits % t) + acc % 2 ^ b1 / 2 ^ (bits % t) := by
          have h2 : acc / 2 ^ b1 % 2 ^ t * 2 ^ b1 =
              2 ^ (bits % t) * (acc / 2 ^ b1 % 2 ^ t * 2 ^ (b1 - bits % t)) := by
            rw [show (2 : Nat) ^ b1 = 2 ^ (bits % t) * 2 ^ (b1 - bits % t) from by
              rw [← pow_add, show bits % t + (b1 - bits % t) = b1 from by omega]]
            ring
          rw [h2, Nat.mul_add_div (by positivity)]
        rw [key]

theorem convGo_spec (f t m M : Nat) (ht : 0 < t) (hm : m = 2 ^ t - 1)
    (hM : M = 2 ^ (f + t - 1) - 1) :
    ∀ data : List Nat, (∀ v ∈ data, v < 2 ^ f) → ∀ acc bits : Nat, bits < t →
      ∃ (out : List Nat) (accF : Nat),
        convGo f t m M data acc bits = some (out, accF, (bits + f * data.length) % t) ∧
        (∀ x ∈ out, x < 2 ^ t) ∧
        t * out.length + (bits + f * data.length) % t = bits + f * data.length ∧
        val t out * 2 ^ ((bits + f * data.length) % t) +
            accF % 2 ^ ((bits + f * data.length) % t) =
          acc % 2 ^ bits * 2 ^ (f * data.length) + val f data := by
  intro data
  induction data with
  | nil =>
    intro _ acc bits hbits
    refine ⟨[], acc, ?_, by simp, ?_, ?_⟩
    · show some ([], acc, bits) = _
      simp [Nat.mod_eq_of_lt hbits]
    · simp [Nat.mod_eq_of_lt hbits]
    · simp [Nat.mod_eq_of_lt hbits, val_nil]
  | cons v rest ih =>
    intro hdata acc bits hbits
    have hv : v < 2 ^ f := hdata v (List.mem_cons_self _ _)
    have hv0 : v >>> f = 0 := by
      rw [Nat.shiftRight_eq_div_pow]
      exact Nat.div_eq_of_lt hv
    set acc1 := ((acc <<< f) ||| v) &&& M with hacc1def
    set A := acc % 2 ^ bits * 2 ^ f + v with hAdef
    -- semantics of the masked accumulator update
    have hacc1 : acc1 % 2 ^ (bits + f) = A := by
      rw [hacc1def, hM, Nat.and_pow_two_sub_one_eq_mod,
        Nat.mod_mod_of_dvd _ (pow_dvd_pow 2 (by omega : bits + f ≤ f + t - 1)),
        Nat.shiftLeft_eq, show acc * 2 ^ f ||| v = acc * 2 ^ f + v from by
          have hor := shiftLeft_or_low acc hv
          rw [Nat.shiftLeft_eq] at hor
          exact hor]
      rw [pow_add]
      have e1 : acc * 2 ^ f % (2 ^ bits * 2 ^ f) = acc % 2 ^ bits * 2 ^ f :=
        Nat.mul_mod_mul_right _ _ _
      have hlt : acc % 2 ^ bits * 2 ^ f + v < 2 ^ bits * 2 ^ f := by
        have h1 : acc % 2 ^ bits + 1 ≤ 2 ^ bits := Nat.mod_lt _ (by positivity)
        have h2 : (acc % 2 ^ bits + 1) * 2 ^ f ≤ 2 ^ bits * 2 ^ f :=
          Nat.mul_le_mul_right _ h1
        rw [Nat.add_mul, Nat.one_mul] at h2
        omega
      rw [Nat.add_mod, e1, Nat.mod_eq_of_lt (lt_of_lt_of_le hv (by
          calc (2 : Nat) ^ f = 1 * 2 ^ f := (Nat.one_mul _).symm
            _ ≤ 2 ^ bits * 2 ^ f := Nat.mul_le_mul_right _ Nat.one_le_two_pow)),
        Nat.mod_eq_of_lt hlt, hAdef]
    obtain ⟨e2, elen, ebound, eval⟩ := whileEmit_spec t m acc1 ht hm (bits + f)
    set er1 := (whileEmit t m acc1 (bits + f)).1 with her1
    set r2 := (bits + f) % t with hr2
    have hr2lt : r2 < t := Nat.mod_lt _ ht
    have hr2le : r2 ≤ bits + f := Nat.mod_le _ _
    obtain ⟨out2, accF, heq, hbound2, hlen2, hval2⟩ :=
      ih (fun x hx => hdata x (List.mem_cons_of_mem _ hx)) acc1 r2 hr2lt
    set n := rest.length with hn
    -- assemble the one-step unfolding of convGo
    refine ⟨er1 ++ out2, accF, ?_, ?_, ?_, ?_⟩
    · show convGo f t m M (v :: rest) acc bits = _
      rw [convGo, if_neg (not_not_intro hv0)]
      dsimp only
      rw [← hacc1def, e2, heq]
      have hmodeq : (r2 + f * n) % t = (bits + f * (v :: rest).length) % t := by
        rw [hr2, Nat.mod_add_mod, List.length_cons, ← hn]
        congr 1
        ring
      rw [hmodeq]
    · intro x hx
      rcases List.mem_append.mp hx with hx | hx
      · exact ebound x hx
      · exact hbound2 x hx
    · have h1 : t * er1.length + r2 = bits + f := by
        rw [her1, elen, hr2]
        exact Nat.div_add_mod _ _
      rw [List.length_append, Nat.mul_add, List.length_cons, ← hn]
      rw [show (bits + f * (n + 1)) % t = (r2 + f * n) % t from by
        rw [hr2, Nat.mod_add_mod]
        congr 1
        ring]
      rw [show f * (n + 1) = f * n + f from by ring]
      omega
    · -- the value equation
      have hmodeq : (r2 + f * n) % t = (bits + f * (v :: rest).length) % t := by
        rw [hr2, Nat.mod_add_mod, List.length_cons, ← hn]
        congr 1
        ring
      set R := (bits + f * (v :: rest).length) % t with hR
      rw [hmodeq] at hlen2 hval2
      have heval : val t er1 = A / 2 ^ r2 := by
        rw [eval, hacc1]
      have hmod2 : acc1 % 2 ^ r2 = A % 2 ^ r2 := by
        rw [← Nat.mod_mod_of_dvd acc1 (pow_dvd_pow 2 hr2le), hacc1]
      have hlen1 : t * out2.length + R = r2 + f * n := hlen2
      rw [val_append, heval]
      rw [hmod2] at hval2
      -- expand the combined exponent
      have hexp : t * out2.length + R = r2 + f * n := hlen1
      calc (A / 2 ^ r2 * 2 ^ (t * out2.length) + val t out2) * 2 ^ R + accF % 2 ^ R
          = A / 2 ^ r2 * (2 ^ (t * out2.length) * 2 ^ R) +
              (val t out2 * 2 ^ R + accF % 2 ^ R) := by ring
        _ = A / 2 ^ r2 * 2 ^ (r2 + f * n) +
              (A % 2 ^ r2 * 2 ^ (f * n) + val f rest) := by
            rw [← pow_add, hexp, hval2]
        _ = (A / 2 ^ r2 * 2 ^ r2 + A % 2 ^ r2) * 2 ^ (f * n) + val f rest := by
            rw [pow_add]
            ring
        _ = A * 2 ^ (f * n) + val f rest := by
            rw [Nat.div_add_mod']
        _ = acc % 2 ^ bits * 2 ^ (f * (v :: rest).length) + val f (v :: rest) := by
            rw [hAdef, val_cons, List.length_cons, ← hn]
            rw [show f * (n + 1) = f * n + f from by ring, pow_add]
            ring

theorem convertbits_8_5 (bytes : List Nat) (h : ∀ b ∈ bytes, b < 2 ^ 8) :
    ∃ L : List Nat, convertbits bytes 8 5 true = some L ∧ (∀ x ∈ L, x < 2 ^ 5) ∧
      5 * L.length = 8 * bytes.length + (5 - 8 * bytes.length % 5) % 5 ∧
      val 5 L = val 8 bytes * 2 ^ ((5 - 8 * bytes.length % 5) % 5) := by
  obtain ⟨out, accF, heq, hbound, hlen, hval⟩ :=
    convGo_spec 8 5 ((1 <<< 5) - 1) ((1 <<< (8 + 5 - 1)) - 1) (by norm_num) (by decide)
      (by decide) bytes h 0 0 (by norm_num)
  rw [Nat.zero_add] at heq hlen hval
  rw [show (0 : Nat) % 2 ^ 0 = 0 from rfl, Nat.zero_mul, Nat.zero_add] at hval
  by_cases hb : 8 * bytes.length % 5 = 0
  · refine ⟨out, ?_, hbound, ?_, ?_⟩
    · simp only [convertbits]
      rw [heq]
      dsimp only
      rw [if_pos (by trivial), if_neg (not_not_intro hb)]
    · rw [hb] at hlen ⊢
      simpa using hlen
    · rw [hb] at hval ⊢
      simpa [Nat.mod_one] using hval
  · set b := 8 * bytes.length % 5 with hbdef
    have hblt : b < 5 := Nat.mod_lt _ (by norm_num)
    set r := accF % 2 ^ b with hrdef
    have hrlt : r < 2 ^ b := Nat.mod_lt _ (by positivity)
    have hpad : (accF <<< (5 - b)) &&& ((1 <<< 5) - 1) = r * 2 ^ (5 - b) := by
      rw [show ((1 <<< 5) - 1 : Nat) = 31 from rfl, and31, Nat.shiftLeft_eq]
      rw [show (32 : Nat) = 2 ^ b * 2 ^ (5 - b) from by
        rw [← pow_add, show b + (5 - b) = 5 from by omega]
        norm_num]
      exact Nat.mul_mod_mul_right _ _ _
    refine ⟨out ++ [(accF <<< (5 - b)) &&& ((1 <<< 5) - 1)], ?_, ?_, ?_, ?_⟩
    · simp only [convertbits]
      rw [heq]
      dsimp only
      rw [if_pos (by trivial), if_pos hb]
    · intro x hx
      rcases List.mem_append.mp hx with hx | hx
      · exact hbound x hx
      · rw [List.mem_singleton.mp hx, hpad]
        calc r * 2 ^ (5 - b) < 2 ^ b * 2 ^ (5 - b) :=
              (Nat.mul_lt_mul_right (show 0 < 2 ^ (5 - b) by positivity)).mpr hrlt
          _ = 2 ^ 5 := by
              rw [← pow_add, show b + (5 - b) = 5 from by omega]
    · rw [List.length_append, List.length_singleton,
        show (5 - 8 * bytes.length % 5) % 5 = 5 - b from by
          rw [← hbdef]
          exact Nat.mod_eq_of_lt (by omega)]
      omega
    · rw [val_append, hpad, show val 5 [r * 2 ^ (5 - b)] = r * 2 ^ (5 - b) from by
        rw [show [r * 2 ^ (5 - b)] = r * 2 ^ (5 - b) :: [] from rfl, val_cons, val_nil]
        simp]
      rw [List.length_singleton, Nat.mul_one,
        show (5 - 8 * bytes.length % 5) % 5 = 5 - b from by
          rw [← hbdef]
          exact Nat.mod_eq_of_lt (by omega)]
      have h5 : (2 : Nat) ^ 5 = 2 ^ b * 2 ^ (5 - b) := by
        rw [← pow_add, show b + (5 - b) = 5 from by omega]
      rw [h5]
      calc val 5 out * (2 ^ b * 2 ^ (5 - b)) + r * 2 ^ (5 - b)
          = (val 5 out * 2 ^ b + r) * 2 ^ (5 - b) := by ring
        _ = val 8 bytes * 2 ^ (5 - b) := by rw [hval]

theorem convertbits_5_8 (L bytes : List Nat) (p : Nat) (hp : p < 5)
    (hL : ∀ x ∈ L, x < 2 ^ 5) (hbytes : ∀ x ∈ bytes, x < 2 ^ 8)
    (hlen : 5 * L.length = 8 * bytes.length + p)
    (hval : val 5 L = val 8 bytes * 2 ^ p) :
    convertbits L 5 8 false = some bytes := by
  obtain ⟨out, accF, heq, hbound, hlen2, hval2⟩ :=
    convGo_spec 5 8 ((1 <<< 8) - 1) ((1 <<< (5 + 8 - 1)) - 1) (by norm_num) (by decide)
      (by decide) L hL 0 0 (by norm_num)
  rw [Nat.zero_add] at heq hlen2 hval2
  rw [show (0 : Nat) % 2 ^ 0 = 0 from rfl, Nat.zero_mul, Nat.zero_add] at hval2
  have hbf : 5 * L.length % 8 = p := by
    rw [hlen, Nat.mul_add_mod]
    exact Nat.mod_eq_of_lt (by omega)
  rw [hbf] at heq hlen2 hval2
  rw [hval] at hval2
  have hrlt : accF % 2 ^ p < 2 ^ p := Nat.mod_lt _ (by positivity)
  have hXY : val 8 out = val 8 bytes := by
    have e1 : (val 8 out * 2 ^ p + accF % 2 ^ p) / 2 ^ p = val 8 out := by
      rw [mul_comm, Nat.mul_add_div (by positivity), Nat.div_eq_of_lt hrlt, Nat.add_zero]
    have e2 : val 8 bytes * 2 ^ p / 2 ^ p = val 8 bytes :=
      Nat.mul_div_cancel _ (by positivity)
    rw [← e1, hval2, e2]
  have hr0 : accF % 2 ^ p = 0 := by
    rw [hXY] at hval2
    omega
  have hlens : out.length = bytes.length := by omega
  have hout : out = bytes :=
    val_inj 8 out bytes hlens hbound hbytes hXY
  simp only [convertbits]
  rw [heq]
  dsimp only
  rw [if_neg (show ¬ (false = true) by simp), if_neg ?_]
  · rw [hout]
  · rw [not_or]
    constructor
    · omega
    · rw [not_not, show ((1 <<< 8) - 1 : Nat) = 2 ^ 8 - 1 from rfl,
        Nat.and_pow_two_sub_one_eq_mod, Nat.shiftLeft_eq]
      rw [show (2 : Nat) ^ 8 = 2 ^ p * 2 ^ (8 - p) from by
        rw [← pow_add, show p + (8 - p) = 8 from by omega]]
      rw [Nat.mul_mod_mul_right, hr0, Nat.zero_mul]

/-! ### Character-level facts -/

theorem char_eq_of_toNat_eq {a b : Char} (h : a.toNat = b.toNat) : a = b :=
  Char.eq_of_val_eq (UInt32.ext h)

theorem toNat_ofNat {n : Nat} (h : n < 128) : (Char.ofNat n).toNat = n := by
  unfold Char.ofNat
  rw [dif_pos (by constructor; omega)]
  rfl

theorem pylower_toNat_upper {c : Char} (h : 65 ≤ c.toNat ∧ c.toNat ≤ 90) :
    (pylower c).toNat = c.toNat + 32 := by
  unfold pylower
  rw [if_pos h, toNat_ofNat (by omega)]

theorem pylower_eq_self {c : Char} (h : ¬(65 ≤ c.toNat ∧ c.toNat ≤ 90)) :
    pylower c = c := by
  unfold pylower
  rw [if_neg h]

theorem one_toNat : ('1').toNat = 49 := rfl

theorem pylower_eq_one_iff (c : Char) : pylower c = '1' ↔ c = '1' := by
  by_cases h : 65 ≤ c.toNat ∧ c.toNat ≤ 90
  · constructor
    · intro he
      have h2 := pylower_toNat_upper h
      rw [he, one_toNat] at h2
      omega
    · intro he
      rw [he, one_toNat] at h
      omega
  · rw [pylower_eq_self h]

theorem pylower_idem (c : Char) : pylower (pylower c) = pylower c := by
  by_cases h : 65 ≤ c.toNat ∧ c.toNat ≤ 90
  · apply pylower_eq_self
    rw [pylower_toNat_upper h]
    omega
  · rw [pylower_eq_self h, pylower_eq_self h]

theorem pylower_mem_range {c : Char} (h33 : 33 ≤ c.toNat) (h126 : c.toNat ≤ 126) :
    33 ≤ (pylower c).toNat ∧ (pylower c).toNat ≤ 126 := by
  by_cases h : 65 ≤ c.toNat ∧ c.toNat ≤ 90
  · rw [pylower_toNat_upper h]
    omega
  · rw [pylower_eq_self h]
    omega

theorem pylower_not_upper (c : Char) :
    ¬(65 ≤ (pylower c).toNat ∧ (pylower c).toNat ≤ 90) := by
  by_cases h : 65 ≤ c.toNat ∧ c.toNat ≤ 90
  · rw [pylower_toNat_upper h]
    omega
  · rw [pylower_eq_self h]
    exact h

theorem map_id_of_fixed {α : Type} {f : α → α} :
    ∀ l : List α, (∀ x ∈ l, f x = x) → l.map f = l := by
  intro l
  induction l with
  | nil => intro _; rfl
  | cons x xs ih =>
    intro h
    rw [List.map_cons, h x (List.mem_cons_self _ _),
      ih (fun y hy => h y (List.mem_cons_of_mem _ hy))]

/-! ### Facts about the character set -/

theorem charset_mem_range : ∀ c ∈ CHARSET, 33 ≤ c.toNat ∧ c.toNat ≤ 126 := by decide

theorem charset_pylower_fixed : ∀ c ∈ CHARSET, pylower c = c := by decide

theorem charset_not_upper : ∀ c ∈ CHARSET, ¬(65 ≤ c.toNat ∧ c.toNat ≤ 90) := by decide

theorem one_not_in_charset : '1' ∉ CHARSET := by decide

theorem pylower_one : pylower '1' = '1' := by decide

theorem charset_getD_mem : ∀ d : Nat, d < 32 → CHARSET.getD d ' ' ∈ CHARSET := by decide

theorem charset_indexOf_getD : ∀ d : Nat, d < 32 →
    CHARSET.indexOf (CHARSET.getD d ' ') = d := by decide

theorem charset_length : CHARSET.length = 32 := rfl

theorem charset_indexOf_lt {c : Char} (h : c ∈ CHARSET) : CHARSET.indexOf c < 32 := by
  rw [← charset_length]
  exact List.indexOf_lt_length.mpr h

theorem charset_indexOf_inj {c d : Char} (hc : c ∈ CHARSET) (hd : d ∈ CHARSET)
    (hne : c ≠ d) : CHARSET.indexOf c ≠ CHARSET.indexOf d := by
  intro h
  apply hne
  have hc2 := List.indexOf_lt_length.mpr hc
  have hd2 := List.indexOf_lt_length.mpr hd
  have e1 := List.indexOf_get hc2
  have e2 := List.indexOf_get hd2
  rw [← e1, ← e2]
  congr 1
  exact Fin.ext h

/-! ### Facts about rfind -/

theorem rfindAux_eq_none (c : Char) : ∀ l : List Char, rfindAux c l = none ↔ c ∉ l := by
  intro l
  induction l with
  | nil => simp [rfindAux]
  | cons x xs ih =>
    rw [List.mem_cons, not_or]
    show (match rfindAux c xs with
      | some i => some (i + 1)
      | none => if x = c then some 0 else none) = none ↔ _
    cases hx : rfindAux c xs with
    | some k =>
      have hmem : c ∈ xs := by
        by_contra hc
        rw [← ih] at hc
        rw [hc] at hx
        exact Option.noConfusion hx
      simp [hmem]
    | none =>
      have hcx : c ∉ xs := ih.mp hx
      by_cases hxc : x = c
      · rw [if_pos hxc]
        subst hxc
        simp
      · rw [if_neg hxc]
        exact iff_of_true rfl ⟨fun hh => hxc hh.symm, hcx⟩

theorem rfindAux_append (c : Char) (l1 l2 : List Char) :
    rfindAux c (l1 ++ l2) =
      match rfindAux c l2 with
      | some i => some (l1.length + i)
      | none => rfindAux c l1 := by
  induction l1 with
  | nil =>
    cases h : rfindAux c l2 <;> simp [h, rfindAux]
  | cons x xs ih =>
    show (match rfindAux c (xs ++ l2) with
      | some i => some (i + 1)
      | none => if x = c then some 0 else none) = _
    rw [ih]
    cases h : rfindAux c l2 with
    | some k =>
      simp only [List.length_cons]
      exact congrArg some (by omega)
    | none => rfl

theorem rfind_append_one (hrp rest : List Char) (hrest : '1' ∉ rest) :
    rfind (hrp ++ '1' :: rest) '1' = (hrp.length : Int) := by
  unfold rfind
  rw [rfindAux_append]
  have h2 : rfindAux '1' ('1' :: rest) = some 0 := by
    show (match rfindAux '1' rest with
      | some i => some (i + 1)
      | none => if '1' = '1' then some 0 else none) = some 0
    rw [(rfindAux_eq_none '1' rest).mpr hrest, if_pos rfl]
  rw [h2]
  simp

theorem rfindAux_map_pylower (l : List Char) :
    rfindAux '1' (l.map pylower) = rfindAux '1' l := by
  induction l with
  | nil => rfl
  | cons x xs ih =>
    rw [List.map_cons]
    rw [show rfindAux '1' (pylower x :: xs.map pylower) =
        (match rfindAux '1' (xs.map pylower) with
          | some i => some (i + 1)
          | none => if pylower x = '1' then some 0 else none) from rfl]
    rw [show rfindAux '1' (x :: xs) =
        (match rfindAux '1' xs with
          | some i => some (i + 1)
          | none => if x = '1' then some 0 else none) from rfl]
    rw [ih]
    cases h : rfindAux '1' xs with
    | some k => rfl
    | none =>
      show (if pylower x = '1' then some 0 else none) = (if x = '1' then some 0 else none)
      rw [if_congr (pylower_eq_one_iff x) rfl rfl]

theorem rfind_map_pylower (l : List Char) :
    rfind (l.map pylower) '1' = rfind l '1' := by
  unfold rfind
  rw [rfindAux_map_pylower]

theorem rfindAux_decomp (c : Char) :
    ∀ (l : List Char) (i : Nat), rfindAux c l = some i →
      ∃ l1 l2 : List Char, l = l1 ++ c :: l2 ∧ l1.length = i ∧ c ∉ l2 := by
  intro l
  induction l with
  | nil => intro i h; exact Option.noConfusion h
  | cons x xs ih =>
    intro i h
    rw [show rfindAux c (x :: xs) =
        (match rfindAux c xs with
          | some k => some (k + 1)
          | none => if x = c then some 0 else none) from rfl] at h
    cases hx : rfindAux c xs with
    | some k =>
      rw [hx] at h
      obtain ⟨l1, l2, he, hlen, hnot⟩ := ih k hx
      refine ⟨x :: l1, l2, by rw [he, List.cons_append], ?_, hnot⟩
      rw [List.length_cons, hlen]
      cases h
      rfl
    | none =>
      rw [hx] at h
      by_cases hxc : x = c
      · rw [if_pos hxc] at h
        cases h
        exact ⟨[], xs, by rw [hxc, List.nil_append], rfl, (rfindAux_eq_none c xs).mp hx⟩
      · rw [if_neg hxc] at h
        exact Option.noConfusion h

/-! ### Structural characterization of bech32_decode -/

/-- Any successful `bech32_decode` run decomposes its (case-normalized) input
into an HRP, the separator, and a charset-only tail with a valid checksum. -/
theorem bech32_decode_success {bech hrp : List Char} {data : List Nat}
    (h : bech32_decode bech = (some hrp, some data)) :
    ∃ rest : List Char,
      bech.map pylower = hrp ++ '1' :: rest ∧
      1 ≤ hrp.length ∧ hrp.length ≤ 83 ∧ 6 ≤ rest.length ∧
      (∀ x ∈ rest, x ∈ CHARSET) ∧ '1' ∉ rest ∧
      bech32_verify_checksum hrp (rest.map (fun x => CHARSET.indexOf x)) = true ∧
      data = (rest.map (fun x => CHARSET.indexOf x)).take (rest.length - 6) ∧
      (∀ x ∈ bech, 33 ≤ x.toNat ∧ x.toNat ≤ 126) := by
  simp only [bech32_decode] at h
  split_ifs at h with h1 h2 h3 h4
  any_goals exact Option.noConfusion (congrArg Prod.fst h)
  case _ =>
    -- success branch
    rw [Prod.mk.injEq, Option.some.injEq, Option.some.injEq] at h
    obtain ⟨hhrp, hdata⟩ := h
    push_neg at h2
    obtain ⟨hp1, hp83, hplen⟩ := h2

    -- the separator position
    have hfind : ∃ i : Nat, rfindAux '1' (bech.map pylower) = some i := by
      cases hfa : rfindAux '1' (bech.map pylower) with
      | some i => exact ⟨i, rfl⟩
      | none =>
        exfalso
        have hm1 : rfind (bech.map pylower) '1' = -1 := by
          unfold rfind
          rw [hfa]
        rw [hm1] at hp1
        omega
    obtain ⟨i, hi⟩ := hfind
    have hpos : rfind (bech.map pylower) '1' = (i : Int) := by
      unfold rfind
      rw [hi]
    obtain ⟨l1, l2, hdec, hl1, hnot⟩ := rfindAux_decomp '1' (bech.map pylower) i hi
    have htn : (rfind (bech.map pylower) '1').toNat = i := by
      rw [hpos]
      exact Int.toNat_ofNat i
    rw [htn] at hhrp hdata h3 h4
    rw [hpos] at hp1 hp83 hplen
    have hi1 : 1 ≤ i := by exact_mod_cast hp1
    have hi83 : i ≤ 83 := by exact_mod_cast hp83
    have hilen : i + 7 ≤ (bech.map pylower).length := by
      rw [List.length_map] at hplen ⊢
      omega
    have htake : (bech.map pylower).take i = l1 := by
      rw [hdec, ← hl1, List.take_left]
    have hdrop : (bech.map pylower).drop (i + 1) = l2 := by
      rw [hdec, show l1 ++ '1' :: l2 = (l1 ++ ['1']) ++ l2 from by simp, ← hl1]
      rw [show l1.length + 1 = (l1 ++ ['1']).length from by simp]
      exact List.drop_left _ _
    have hhrp2 : hrp = l1 := by rw [← hhrp, htake]
    have hl2len : 6 ≤ l2.length := by
      rw [hdec] at hilen
      rw [List.length_append, List.length_cons] at hilen
      omega
    refine ⟨l2, by rw [hdec, hhrp2], ?_, ?_, hl2len, ?_, hnot, ?_, ?_, ?_⟩
    · rw [hhrp2, hl1]
      exact hi1
    · rw [hhrp2, hl1]
      exact hi83
    · intro x hx
      have := h3 x (by rw [hdrop]; exact hx)
      exact this
    · rw [htake, hdrop] at h4
      rw [hhrp2]
      exact h4
    · rw [← hdata, hdrop, List.length_map]
    · intro x hx
      by_contra hc
      push_neg at hc
      exact h1 (Or.inl ⟨x, hx, by omega⟩)

/-- Decoding a string of the shape `hrp ++ "1" ++ rest`, with well-formed
lowercase HRP and charset-only tail, reduces to the checksum test. -/
theorem bech32_decode_parts (hrp rest : List Char)
    (hne : hrp ≠ []) (hlen : hrp.length ≤ 83)
    (hchars : ∀ c ∈ hrp, 33 ≤ c.toNat ∧ c.toNat ≤ 126)
    (hlow : hrp.map pylower = hrp)
    (hrest : ∀ c ∈ rest, c ∈ CHARSET) (hrlen : 6 ≤ rest.length) :
    bech32_decode (hrp ++ '1' :: rest) =
      if bech32_verify_checksum hrp (rest.map (fun x => CHARSET.indexOf x)) then
        (some hrp, some ((rest.map (fun x => CHARSET.indexOf x)).take (rest.length - 6)))
      else (none, none) := by
  have hone : '1' ∉ rest := fun hmem => one_not_in_charset (hrest _ hmem)
  have hlowmap : (hrp ++ '1' :: rest).map pylower = hrp ++ '1' :: rest := by
    rw [List.map_append, List.map_cons, hlow, pylower_one,
      map_id_of_fixed rest (fun x hx => charset_pylower_fixed x (hrest x hx))]
  simp only [bech32_decode]
  rw [if_neg ?hcond1]
  case hcond1 =>
    push_neg
    refine ⟨?_, ?_⟩
    · intro x hx
      rcases List.mem_append.mp hx with hx | hx
      · have := hchars x hx
        omega
      · rcases List.mem_cons.mp hx with hx | hx
        · rw [hx]
          decide
        · have := charset_mem_range x (hrest x hx)
          omega
    · intro hcontra
      exact absurd hlowmap hcontra
  rw [hlowmap, rfind_append_one hrp rest hone]
  rw [if_neg ?hcond2]
  case hcond2 =>
    rw [not_or, not_or]
    have hlen1 : 1 ≤ hrp.length := by
      cases hrp with
      | nil => exact absurd rfl hne
      | cons a l => simp
    refine ⟨?_, ?_, ?_⟩
    · rw [not_lt]
      exact_mod_cast hlen1
    · rw [not_lt]
      exact_mod_cast hlen
    · rw [not_lt, List.length_append, List.length_cons]
      push_cast
      omega
  rw [Int.toNat_ofNat]
  have hdrop : (hrp ++ '1' :: rest).drop (hrp.length + 1) = rest := by
    rw [show hrp ++ '1' :: rest = (hrp ++ ['1']) ++ rest from by simp]
    rw [show hrp.length + 1 = (hrp ++ ['1']).length from by simp]
    exact List.drop_left _ _
  have htake : (hrp ++ '1' :: rest).take hrp.length = hrp := List.take_left _ _
  rw [if_neg (not_not_intro (by rw [hdrop]; exact hrest))]
  rw [hdrop, htake, List.length_map]

theorem create_checksum_length (hrp : List Char) (data : List Nat) :
    (bech32_create_checksum hrp data).length = 6 := by
  simp [bech32_create_checksum]

theorem create_checksum_lt (hrp : List Char) (data : List Nat) :
    ∀ x ∈ bech32_create_checksum hrp data, x < 32 := by
  rw [create_checksum_eq]
  intro x hx
  simp only [List.mem_cons, List.not_mem_nil, or_false] at hx
  rcases hx with h | h | h | h | h | h <;>
    (rw [h, and31]; exact Nat.mod_lt _ (by norm_num))

/-- Decoding an encoded string with well-formed lowercase HRP and 5-bit data
succeeds and recovers the HRP and the data. -/
theorem bech32_decode_encode (hrp : List Char) (data : List Nat)
    (hne : hrp ≠ []) (hlen : hrp.length ≤ 83)
    (hchars : ∀ c ∈ hrp, 33 ≤ c.toNat ∧ c.toNat ≤ 126)
    (hlow : hrp.map pylower = hrp)
    (hdata : ∀ d ∈ data, d < 32) :
    bech32_decode (bech32_encode hrp data) = (some hrp, some data) := by
  have hcombined : ∀ d ∈ data ++ bech32_create_checksum hrp data, d < 32 := by
    intro d hd
    rcases List.mem_append.mp hd with hd | hd
    · exact hdata d hd
    · exact create_checksum_lt hrp data d hd
  have hmapped : ∀ c ∈ (data ++ bech32_create_checksum hrp data).map
      (fun d => CHARSET.getD d ' '), c ∈ CHARSET := by
    intro c hc
    obtain ⟨d, hd, rfl⟩ := List.mem_map.mp hc
    exact charset_getD_mem d (hcombined d hd)
  have hmlen : 6 ≤ ((data ++ bech32_create_checksum hrp data).map
      (fun d => CHARSET.getD d ' ')).length := by
    rw [List.length_map, List.length_append, create_checksum_length]
    omega
  show bech32_decode (hrp ++ '1' :: (data ++ bech32_create_checksum hrp data).map
    (fun d => CHARSET.getD d ' ')) = _
  rw [bech32_decode_parts hrp _ hne hlen hchars hlow hmapped hmlen]
  have hroundtrip : ((data ++ bech32_create_checksum hrp data).map
      (fun d => CHARSET.getD d ' ')).map (fun x => CHARSET.indexOf x) =
      data ++ bech32_create_checksum hrp data := by
    rw [List.map_map]
    exact map_id_of_fixed _ (fun d hd => charset_indexOf_getD d (hcombined d hd))
  rw [hroundtrip, if_pos (verify_create hrp data)]
  rw [List.length_map, List.length_append, create_checksum_length]
  rw [show data.length + 6 - 6 = data.length from by omega]
  rw [List.take_left]

/-- `bech32_decode` always returns either the paired failure sentinel or a
fully successful pair: the two components are never mixed. -/
theorem bech32_decode_cases (bech : List Char) :
    bech32_decode bech = (none, none) ∨
      ∃ (h : List Char) (d : List Nat), bech32_decode bech = (some h, some d) := by
  simp only [bech32_decode]
  split_ifs <;> first
  | exact Or.inl rfl
  | exact Or.inr ⟨_, _, rfl⟩

/-- The witness-address `decode` likewise returns the paired sentinel or a
fully successful pair. -/
theorem decode_cases (hrp addr : List Char) :
    decode hrp addr = (none, none) ∨
      ∃ (v : Nat) (p : List Nat), decode hrp addr = (some v, some p) := by
  unfold decode
  rcases bech32_decode_cases addr with hb | ⟨h, d, hb⟩ <;> rw [hb]
  · rw [if_pos (by simp)]
    exact Or.inl rfl
  · by_cases hh : h = hrp
    · rw [if_neg (by simp [hh])]
      dsimp only
      cases hcv : convertbits (d.drop 1) 5 8 false with
      | none => exact Or.inl rfl
      | some dec =>
        dsimp only
        split_ifs <;> first
        | exact Or.inl rfl
        | exact Or.inr ⟨_, _, rfl⟩
    · rw [if_pos (by simp [hh])]
      exact Or.inl rfl

/-- Evaluation of the witness-address `decode` when the underlying Bech32
decode succeeds and all Segwit-side checks pass. -/
theorem decode_eval (hrp addr : List Char) (witver : Nat) (five witprog : List Nat)
    (hb : bech32_decode addr = (some hrp, some (witver :: five)))
    (hcv : convertbits five 5 8 false = some witprog)
    (hlen : 2 ≤ witprog.length ∧ witprog.length ≤ 40)
    (hv : witver ≤ 16)
    (hv0 : witver = 0 → witprog.length = 20 ∨ witprog.length = 32) :
    decode hrp addr = (some witver, some witprog) := by
  unfold decode
  rw [hb]
  rw [if_neg (by simp)]
  dsimp only
  rw [show List.drop 1 (witver :: five) = five from rfl, hcv]
  dsimp only
  rw [if_neg (by omega)]
  rw [show (witver :: five).headD 0 = witver from rfl]
  rw [if_neg (by omega)]
  rw [if_neg (by
    rintro ⟨h0, h20, h32⟩
    rcases hv0 h0 with h | h
    · exact h20 h
    · exact h32 h)]

/-- Core of claim C1: on any valid input the witness-address encoder succeeds
and its output decodes back to exactly the input. -/
theorem encode_decode_roundtrip (hrp : List Char) (witver : Nat) (witprog : List Nat)
    (hne : hrp ≠ []) (hlen : hrp.length ≤ 83)
    (hchars : ∀ c ∈ hrp, 33 ≤ c.toNat ∧ c.toNat ≤ 126)
    (hlow : hrp.map pylower = hrp)
    (hv : witver ≤ 16)
    (hprog : ∀ b ∈ witprog, b < 256)
    (hplen : 2 ≤ witprog.length ∧ witprog.length ≤ 40)
    (hv0 : witver = 0 → witprog.length = 20 ∨ witprog.length = 32) :
    ∃ s : List Char, encode hrp witver witprog = some s ∧
      decode hrp s = (some witver, some witprog) := by
  have hprog8 : ∀ b ∈ witprog, b < 2 ^ 8 := by
    intro b hb
    have := hprog b hb
    omega
  obtain ⟨five, h85, hbound5, hlen5, hval5⟩ := convertbits_8_5 witprog hprog8
  have h58 : convertbits five 5 8 false = some witprog :=
    convertbits_5_8 five witprog _ (Nat.mod_lt _ (by norm_num)) hbound5 hprog8 hlen5 hval5
  have hdec : bech32_decode (bech32_encode hrp (witver :: five)) =
      (some hrp, some (witver :: five)) := by
    apply bech32_decode_encode hrp (witver :: five) hne hlen hchars hlow
    intro d hd
    rcases List.mem_cons.mp hd with hd | hd
    · omega
    · have := hbound5 d hd
      omega
  have hdecode : decode hrp (bech32_encode hrp (witver :: five)) =
      (some witver, some witprog) :=
    decode_eval hrp _ witver five witprog hdec h58 hplen hv hv0
  refine ⟨bech32_encode hrp (witver :: five), ?_, hdecode⟩
  unfold encode
  rw [h85]
  dsimp only
  rw [if_neg (by rw [hdecode]; simp)]

theorem set_append_add {α : Type} (l1 l2 : List α) (k : Nat) (a : α) :
    (l1 ++ l2).set (l1.length + k) a = l1 ++ l2.set k a := by
  rw [List.set_append, if_neg (by omega)]
  congr 2
  omega

/-- Substituting a different charset character at any position after the
separator of an accepted all-lowercase string always makes decoding fail:
the checksum detects every such single-symbol change. -/
theorem detect_data_substitution (bech hrp : List Char) (data : List Nat) (i : Nat) (c : Char)
    (hsucc : bech32_decode bech = (some hrp, some data))
    (hlow : bech.map pylower = bech)
    (hpos : hrp.length < i) (hilen : i < bech.length)
    (hc : c ∈ CHARSET) (hne : c ≠ bech.getD i ' ') :
    bech32_decode (bech.set i c) = (none, none) := by
  obtain ⟨rest, hdec, h1len, h83, hrlen, hrcs, hrone, hver, hdata, hrange⟩ :=
    bech32_decode_success hsucc
  rw [hlow] at hdec
  set j := i - hrp.length - 1 with hj
  have hblen : bech.length = hrp.length + 1 + rest.length := by
    rw [hdec]
    simp
    omega
  have hjlen : j < rest.length := by omega
  have hieq : i = hrp.length + (j + 1) := by omega
  have hset : bech.set i c = hrp ++ '1' :: rest.set j c := by
    rw [hdec, hieq, set_append_add, List.set_cons_succ]
  have hhrpsub : ∀ x ∈ hrp, x ∈ bech := by
    intro x hx
    rw [hdec]
    exact List.mem_append.mpr (Or.inl hx)
  have hhrplow : hrp.map pylower = hrp := by
    have h2 : hrp.map pylower ++ ('1' :: rest).map pylower = hrp ++ '1' :: rest := by
      rw [← List.map_append, ← hdec]
      exact hlow
    exact (List.append_inj h2 (by rw [List.length_map])).1
  have hrest2 : ∀ x ∈ rest.set j c, x ∈ CHARSET := by
    intro x hx
    rcases List.mem_or_eq_of_mem_set hx with hx | hx
    · exact hrcs x hx
    · rw [hx]
      exact hc
  rw [hset, bech32_decode_parts hrp _
    (by
      intro hemp
      rw [hemp] at h1len
      simp at h1len)
    h83 (fun x hx => hrange x (hhrpsub x hx)) hhrplow hrest2
    (by
      rw [List.length_set]
      exact hrlen)]
  rw [if_neg ?hfail]
  case hfail =>
    rw [List.map_set]
    set D := rest.map (fun x => CHARSET.indexOf x) with hD
    have hjD : j < D.length := by
      rw [hD, List.length_map]
      exact hjlen
    have hDlt : ∀ x ∈ D, x < 32 := by
      intro x hx
      rw [hD] at hx
      obtain ⟨y, hy, rfl⟩ := List.mem_map.mp hx
      exact charset_indexOf_lt (hrcs y hy)
    have hrestget : rest.get ⟨j, hjlen⟩ = bech.getD i ' ' := by
      rw [hdec, hieq, List.getD_append_right _ _ _ _ (by omega)]
      rw [show hrp.length + (j + 1) - hrp.length = j + 1 from by omega]
      rw [show ('1' :: rest).getD (j + 1) ' ' = rest.getD j ' ' from rfl]
      rw [List.getD_eq_get _ _ hjlen]
    have hcne : c ≠ rest.get ⟨j, hjlen⟩ := by
      rw [hrestget]
      exact hne
    have hgetmem : rest.get ⟨j, hjlen⟩ ∈ CHARSET := hrcs _ (rest.get_mem _ hjlen)
    have hvne : CHARSET.indexOf (rest.get ⟨j, hjlen⟩) ≠ CHARSET.indexOf c :=
      charset_indexOf_inj hgetmem hc (fun h2 => hcne h2.symm)
    have hsetD : D.set j (CHARSET.indexOf c) =
        D.take j ++ CHARSET.indexOf c :: D.drop (j + 1) :=
      List.set_eq_take_cons_drop _ hjD
    have hrestdec : rest = rest.take j ++ rest.get ⟨j, hjlen⟩ :: rest.drop (j + 1) := by
      conv_lhs => rw [← List.take_append_drop j rest]
      rw [List.drop_eq_getElem_cons hjlen, List.get_eq_getElem]
    have hDdec : D = D.take j ++ CHARSET.indexOf (rest.get ⟨j, hjlen⟩) :: D.drop (j + 1) := by
      rw [hD]
      conv_lhs => rw [hrestdec]
      rw [List.map_append, List.map_cons, List.map_take, List.map_drop]
    unfold bech32_verify_checksum at hver ⊢
    rw [beq_iff_eq] at hver
    rw [show ((bech32_polymod (bech32_hrp_expand hrp ++ D.set j (CHARSET.indexOf c)) == 1)
        = true) = (bech32_polymod (bech32_hrp_expand hrp ++ D.set j (CHARSET.indexOf c)) = 1)
      from by rw [beq_iff_eq]]
    intro hcontra
    have hdiff := polymod_single_change (bech32_hrp_expand hrp ++ D.take j) (D.drop (j + 1))
      (charset_indexOf_lt hgetmem) (charset_indexOf_lt hc)
      (fun x hx => hDlt x (List.drop_subset _ _ hx)) hvne
    apply hdiff
    have e1 : (bech32_hrp_expand hrp ++ D.take j) ++
        CHARSET.indexOf (rest.get ⟨j, hjlen⟩) :: D.drop (j + 1) =
        bech32_hrp_expand hrp ++ D := by
      rw [List.append_assoc, ← hDdec]
    have e2 : (bech32_hrp_expand hrp ++ D.take j) ++ CHARSET.indexOf c :: D.drop (j + 1) =
        bech32_hrp_expand hrp ++ D.set j (CHARSET.indexOf c) := by
      rw [List.append_assoc, ← hsetD]
    rw [e1, e2, hver, hcontra]

/-- Any input whose last separator position is out of the window [1,83]
is rejected by `bech32_decode`. -/
theorem decode_none_of_rfind (bech : List Char)
    (h : rfind bech '1' < 1 ∨ 83 < rfind bech '1') :
    bech32_decode bech = (none, none) := by
  simp only [bech32_decode]
  by_cases h1 : (∃ x ∈ bech, x.toNat < 33 ∨ 126 < x.toNat) ∨
      (bech.map pylower ≠ bech ∧ bech.map pyupper ≠ bech)
  · rw [if_pos h1]
  · rw [if_neg h1, rfind_map_pylower]
    rcases h with h | h
    · rw [if_pos (Or.inl h)]
    · rw [if_pos (Or.inr (Or.inl h))]

/-! ### Affine difference of a polymod under symbol changes -/

theorem polymod_change_eq (pre suf : List Nat) (v w : Nat) :
    bech32_polymod (pre ++ w :: suf) =
      bech32_polymod (pre ++ v :: suf) ^^^ polyLn suf.length (v ^^^ w) := by
  unfold bech32_polymod
  rw [List.foldl_append, List.foldl_append]
  simp only [List.foldl_cons]
  have hw : polymodStep (List.foldl polymodStep 1 pre) w =
      polymodStep (List.foldl polymodStep 1 pre) v ^^^ (v ^^^ w) := by
    rw [polymodStep_eq, polymodStep_eq]
    have hx : (polyL (List.foldl polymodStep 1 pre) ^^^ v) ^^^ (v ^^^ w) =
        polyL (List.foldl polymodStep 1 pre) ^^^ ((v ^^^ v) ^^^ w) := by
      ac_rfl
    rw [hx, Nat.xor_self, Nat.zero_xor]
  rw [hw, foldl_polymodStep_xor]

theorem polyLn_comm (n x : Nat) : polyL (polyLn n x) = polyLn (n + 1) x := by
  induction n generalizing x with
  | zero => rfl
  | succ n ih =>
    show polyL (polyLn n (polyL x)) = polyLn (n + 1) (polyL x)
    exact ih (polyL x)

theorem polyLn_add (a b x : Nat) : polyLn (a + b) x = polyLn b (polyLn a x) := by
  induction b with
  | zero => rfl
  | succ b ih =>
    rw [show a + (b + 1) = (a + b) + 1 from rfl, ← polyLn_comm, ih, polyLn_comm]

theorem polyLn_linear (n a b : Nat) : polyLn n (a ^^^ b) = polyLn n a ^^^ polyLn n b := by
  induction n generalizing a b with
  | zero => rfl
  | succ n ih =>
    show polyLn n (polyL (a ^^^ b)) = _
    rw [polyL_linear]
    exact ih _ _

theorem polyLn_zero (n : Nat) : polyLn n 0 = 0 := by
  induction n with
  | zero => rfl
  | succ n ih =>
    show polyLn n (polyL 0) = 0
    rw [polyL_zero]
    exact ih

theorem polyLn_lt (n : Nat) {x : Nat} (h : x < 2 ^ 30) : polyLn n x < 2 ^ 30 := by
  induction n generalizing x with
  | zero => exact h
  | succ n ih => exact ih (polyL_lt x)

theorem polyLn_ne_zero (n : Nat) {x : Nat} (hlt : x < 2 ^ 30) (hx : x ≠ 0) :
    polyLn n x ≠ 0 := by
  induction n generalizing x with
  | zero => exact hx
  | succ n ih =>
    exact ih (polyL_lt x) (fun h0 => hx (polyL_inj hlt (by norm_num)
      (h0.trans polyL_zero.symm)))

/-- The `polyL` orbit of a nonzero two-bit difference stays at or above 32 for
the first 84 iterations, so a high-5 HRP difference can never be cancelled by
a low-5 difference of the same character within the 83-character HRP window. -/
theorem polyLn_small_ge :
    ∀ j : Nat, j < 85 → 1 ≤ j → ∀ d : Nat, d < 4 → 1 ≤ d → 32 ≤ polyLn j d := by
  decide

/-- Changing both the high-5 and low-5 symbols contributed to the polymod
input by one HRP character (the two positions are `B.length + 1` apart, with
`B.length` the HRP length, at most 83) changes the polymod value whenever the
character actually changed. -/
theorem polymod_two_change (A B C : List Nat) (h h' l l' : Nat)
    (hB83 : B.length ≤ 83)
    (hh1 : 1 ≤ h) (hh3 : h ≤ 3) (hh1' : 1 ≤ h') (hh3' : h' ≤ 3)
    (hl : l < 32) (hl' : l' < 32)
    (hne : ¬(h = h' ∧ l = l')) :
    bech32_polymod (A ++ h' :: (B ++ l' :: C)) ≠
      bech32_polymod (A ++ h :: (B ++ l :: C)) := by
  have e1 : (A ++ h' :: B) ++ l' :: C = A ++ h' :: (B ++ l' :: C) := by
    rw [List.append_assoc, List.cons_append]
  have e2 : (A ++ h' :: B) ++ l :: C = A ++ h' :: (B ++ l :: C) := by
    rw [List.append_assoc, List.cons_append]
  have step1 : bech32_polymod (A ++ h' :: (B ++ l' :: C)) =
      bech32_polymod (A ++ h' :: (B ++ l :: C)) ^^^ polyLn C.length (l ^^^ l') := by
    rw [← e1, ← e2, polymod_change_eq (A ++ h' :: B) C l l']
  have step2 : bech32_polymod (A ++ h' :: (B ++ l :: C)) =
      bech32_polymod (A ++ h :: (B ++ l :: C)) ^^^
        polyLn (B ++ l :: C).length (h ^^^ h') :=
    polymod_change_eq A (B ++ l :: C) h h'
  have hδ1lt : h ^^^ h' < 4 :=
    Nat.xor_lt_two_pow (show h < 2 ^ 2 by omega) (show h' < 2 ^ 2 by omega)
  have hδ2lt : l ^^^ l' < 32 :=
    Nat.xor_lt_two_pow (show l < 2 ^ 5 by omega) (show l' < 2 ^ 5 by omega)
  have hinner : polyLn (B.length + 1) (h ^^^ h') ^^^ (l ^^^ l') ≠ 0 := by
    by_cases hd1 : h ^^^ h' = 0
    · have hhh : h' = h :=
        xor_left_cancel (show h ^^^ h' = h ^^^ h by rw [hd1, Nat.xor_self])
      have hll : l ≠ l' := fun he => hne ⟨hhh.symm, he⟩
      rw [hd1, polyLn_zero, Nat.zero_xor]
      intro h0
      exact hll (xor_left_cancel
        (show l ^^^ l' = l ^^^ l by rw [h0, Nat.xor_self])).symm
    · have hge : 32 ≤ polyLn (B.length + 1) (h ^^^ h') :=
        polyLn_small_ge (B.length + 1) (by omega) (by omega) (h ^^^ h') hδ1lt
          (Nat.one_le_iff_ne_zero.mpr hd1)
      intro h0
      have heq : polyLn (B.length + 1) (h ^^^ h') = l ^^^ l' :=
        xor_right_cancel (show polyLn (B.length + 1) (h ^^^ h') ^^^ (l ^^^ l') =
          (l ^^^ l') ^^^ (l ^^^ l') by rw [h0, Nat.xor_self])
      rw [heq] at hge
      exact absurd hδ2lt (Nat.not_lt.mpr hge)
  have hinnerlt : polyLn (B.length + 1) (h ^^^ h') ^^^ (l ^^^ l') < 2 ^ 30 :=
    Nat.xor_lt_two_pow (polyLn_lt _ (lt_of_lt_of_le hδ1lt (by norm_num)))
      (lt_of_lt_of_le hδ2lt (by norm_num))
  intro hcontra
  rw [step1, step2, Nat.xor_assoc] at hcontra
  have hzero : polyLn (B ++ l :: C).length (h ^^^ h') ^^^ polyLn C.length (l ^^^ l') = 0 :=
    xor_left_cancel (hcontra.trans
      (Nat.xor_zero (bech32_polymod (A ++ h :: (B ++ l :: C)))).symm)
  have hK : (B ++ l :: C).length = (B.length + 1) + C.length := by
    rw [List.length_append, List.length_cons]
    omega
  rw [hK, polyLn_add, ← polyLn_linear] at hzero
  exact polyLn_ne_zero C.length hinnerlt hinner hzero

theorem expand_append_decomp (T P : List Char) (x : Char) (D : List Nat) :
    bech32_hrp_expand (T ++ x :: P) ++ D =
      T.map (fun c => c.toNat >>> 5) ++ (x.toNat >>> 5) ::
        ((P.map (fun c => c.toNat >>> 5) ++ 0 :: T.map (fun c => c.toNat &&& 31)) ++
          ((x.toNat &&& 31) :: (P.map (fun c => c.toNat &&& 31) ++ D))) := by
  unfold bech32_hrp_expand
  simp [List.map_append, List.append_assoc]

theorem high5_bounds {n : Nat} (h33 : 33 ≤ n) (h126 : n ≤ 126) :
    1 ≤ n >>> 5 ∧ n >>> 5 ≤ 3 := by
  rw [Nat.shiftRight_eq_div_pow]
  constructor <;> omega

theorem char_eq_of_high_low {x y : Char} (hh : x.toNat >>> 5 = y.toNat >>> 5)
    (hl : x.toNat &&& 31 = y.toNat &&& 31) : x = y := by
  apply char_eq_of_toNat_eq
  simp only [Nat.shiftRight_eq_div_pow] at hh
  simp only [and31] at hl
  omega

/-- Core of HRP-change detection: replacing one HRP character (both characters
with code points in [33,126]) by a different one changes the polymod value of
the expanded HRP followed by any data, provided the HRP fits the length
window. -/
theorem polymod_hrp_core (T P : List Char) (x y : Char) (D : List Nat)
    (hlen : T.length + 1 + P.length ≤ 83)
    (hx33 : 33 ≤ x.toNat) (hx126 : x.toNat ≤ 126)
    (hy33 : 33 ≤ y.toNat) (hy126 : y.toNat ≤ 126)
    (hne : y ≠ x) :
    bech32_polymod (bech32_hrp_expand (T ++ y :: P) ++ D) ≠
      bech32_polymod (bech32_hrp_expand (T ++ x :: P) ++ D) := by
  rw [expand_append_decomp, expand_append_decomp]
  have hxh := high5_bounds hx33 hx126
  have hyh := high5_bounds hy33 hy126
  apply polymod_two_change
  · rw [List.length_append, List.length_cons, List.length_map, List.length_map]
    omega
  · exact hxh.1
  · exact hxh.2
  · exact hyh.1
  · exact hyh.2
  · rw [and31]
    exact Nat.mod_lt _ (by norm_num)
  · rw [and31]
    exact Nat.mod_lt _ (by norm_num)
  · intro hcontra
    exact hne (char_eq_of_high_low hcontra.1 hcontra.2).symm

theorem polymod_hrp_change (hrp : List Char) (i : Nat) (c : Char) (D : List Nat)
    (hi : i < hrp.length) (hlen : hrp.length ≤ 83)
    (hrange : ∀ x ∈ hrp, 33 ≤ x.toNat ∧ x.toNat ≤ 126)
    (hc33 : 33 ≤ c.toNat) (hc126 : c.toNat ≤ 126)
    (hne : c ≠ hrp.get ⟨i, hi⟩) :
    bech32_polymod (bech32_hrp_expand (hrp.set i c) ++ D) ≠
      bech32_polymod (bech32_hrp_expand hrp ++ D) := by
  have hrpdec : hrp = hrp.take i ++ hrp.get ⟨i, hi⟩ :: hrp.drop (i + 1) := by
    conv_lhs => rw [← List.take_append_drop i hrp]
    rw [List.drop_eq_getElem_cons hi, List.get_eq_getElem]
  have hsetdec : hrp.set i c = hrp.take i ++ c :: hrp.drop (i + 1) :=
    List.set_eq_take_cons_drop _ hi
  have hx0r := hrange _ (hrp.get_mem _ hi)
  rw [hsetdec]
  conv_rhs => rw [hrpdec]
  exact polymod_hrp_core (hrp.take i) (hrp.drop (i + 1)) (hrp.get ⟨i, hi⟩) c D
    (by rw [List.length_take, List.length_drop]; omega)
    hx0r.1 hx0r.2 hc33 hc126 hne


/-- Decoding a string of the shape `hrp ++ "1" ++ rest` whose tail contains a
character outside the charset (but in the printable window, lowercase-fixed,
and not the separator) fails on the charset-membership guard. -/
theorem bech32_decode_parts_fail_charset (hrp rest : List Char)
    (hchars : ∀ c ∈ hrp, 33 ≤ c.toNat ∧ c.toNat ≤ 126)
    (hlow : hrp.map pylower = hrp)
    (hrest : ∀ c ∈ rest, 33 ≤ c.toNat ∧ c.toNat ≤ 126)
    (hrlow : rest.map pylower = rest)
    (hone : '1' ∉ rest)
    (x : Char) (hx : x ∈ rest) (hxns : x ∉ CHARSET) :
    bech32_decode (hrp ++ '1' :: rest) = (none, none) := by
  have hlowmap : (hrp ++ '1' :: rest).map pylower = hrp ++ '1' :: rest := by
    rw [List.map_append, List.map_cons, hlow, pylower_one, hrlow]
  simp only [bech32_decode]
  rw [if_neg ?hcond1]
  case hcond1 =>
    push_neg
    refine ⟨?_, ?_⟩
    · intro y hy
      rcases List.mem_append.mp hy with hy | hy
      · have := hchars y hy
        omega
      · rcases List.mem_cons.mp hy with hy | hy
        · rw [hy]
          decide
        · have := hrest y hy
          omega
    · intro hcontra
      exact absurd hlowmap hcontra
  rw [hlowmap, rfind_append_one hrp rest hone]
  by_cases hwin : ((hrp.length : Int) < 1 ∨ 83 < (hrp.length : Int) ∨
      ((hrp ++ '1' :: rest).length : Int) < (hrp.length : Int) + 7)
  · rw [if_pos hwin]
  · rw [if_neg hwin]
    rw [Int.toNat_ofNat]
    have hdrop : (hrp ++ '1' :: rest).drop (hrp.length + 1) = rest := by
      rw [show hrp ++ '1' :: rest = (hrp ++ ['1']) ++ rest from by simp]
      rw [show hrp.length + 1 = (hrp ++ ['1']).length from by simp]
      exact List.drop_left _ _
    rw [if_pos ?hcond3]
    case hcond3 =>
      rw [hdrop]
      intro hall
      exact hxns (hall x hx)

/-- Substituting a different printable lowercase-fixed character at any
position inside the HRP of an accepted all-lowercase string always makes
decoding fail: the checksum detects the two-symbol change of the expanded
HRP. -/
theorem detect_hrp_substitution (bech hrp : List Char) (data : List Nat) (i : Nat) (c : Char)
    (hsucc : bech32_decode bech = (some hrp, some data))
    (hlow : bech.map pylower = bech)
    (hpos : i < hrp.length)
    (hc33 : 33 ≤ c.toNat) (hc126 : c.toNat ≤ 126) (hclow : pylower c = c)
    (hne : c ≠ bech.getD i ' ') :
    bech32_decode (bech.set i c) = (none, none) := by
  obtain ⟨rest, hdec, h1len, h83, hrlen, hrcs, hrone, hver, hdata, hrange⟩ :=
    bech32_decode_success hsucc
  rw [hlow] at hdec
  have hhrpsub : ∀ x ∈ hrp, x ∈ bech := by
    intro x hx
    rw [hdec]
    exact List.mem_append.mpr (Or.inl hx)
  have hhrplow : hrp.map pylower = hrp := by
    have h2 : hrp.map pylower ++ ('1' :: rest).map pylower = hrp ++ '1' :: rest := by
      rw [← List.map_append, ← hdec]
      exact hlow
    exact (List.append_inj h2 (by rw [List.length_map])).1
  have hset : bech.set i c = hrp.set i c ++ '1' :: rest := by
    rw [hdec, List.set_append, if_pos hpos]
  have hgetd : bech.getD i ' ' = hrp.get ⟨i, hpos⟩ := by
    rw [hdec, List.getD_append _ _ _ _ hpos, List.getD_eq_get _ _ hpos]
  have hne' : c ≠ hrp.get ⟨i, hpos⟩ := by
    rw [← hgetd]
    exact hne
  have hlen' : (hrp.set i c).length ≤ 83 := by
    rw [List.length_set]
    exact h83
  have hne0 : hrp.set i c ≠ [] := by
    intro h0
    have hl0 : (hrp.set i c).length = 0 := by rw [h0]; rfl
    rw [List.length_set] at hl0
    omega
  have hchars' : ∀ x ∈ hrp.set i c, 33 ≤ x.toNat ∧ x.toNat ≤ 126 := by
    intro x hx
    rcases List.mem_or_eq_of_mem_set hx with hx | hx
    · exact hrange x (hhrpsub x hx)
    · rw [hx]
      exact ⟨hc33, hc126⟩
  have hlow' : (hrp.set i c).map pylower = hrp.set i c := by
    rw [List.map_set, hhrplow, hclow]
  rw [hset, bech32_decode_parts (hrp.set i c) rest hne0 hlen' hchars' hlow' hrcs hrlen]
  rw [if_neg ?hfail]
  case hfail =>
    unfold bech32_verify_checksum at hver ⊢
    rw [beq_iff_eq] at hver
    rw [show ((bech32_polymod (bech32_hrp_expand (hrp.set i c) ++
          rest.map fun x => CHARSET.indexOf x) == 1) = true) =
        (bech32_polymod (bech32_hrp_expand (hrp.set i c) ++
          rest.map fun x => CHARSET.indexOf x) = 1) from by rw [beq_iff_eq]]
    intro hcontra
    exact polymod_hrp_change hrp i c (rest.map fun x => CHARSET.indexOf x)
      hpos h83 (fun x hx => hrange x (hhrpsub x hx)) hc33 hc126 hne'
      (hcontra.trans hver.symm)

/-- Replacing the separator of an accepted all-lowercase string whose HRP
contains no other separator character always makes decoding fail: the
resulting string has no separator at all. -/
theorem detect_separator_removal (bech hrp : List Char) (data : List Nat) (c : Char)
    (hsucc : bech32_decode bech = (some hrp, some data))
    (hlow : bech.map pylower = bech)
    (hhrp1 : '1' ∉ hrp)
    (hne : c ≠ bech.getD hrp.length ' ') :
    bech32_decode (bech.set hrp.length c) = (none, none) := by
  obtain ⟨rest, hdec, h1len, h83, hrlen, hrcs, hrone, hver, hdata, hrange⟩ :=
    bech32_decode_success hsucc
  rw [hlow] at hdec
  have hgetd : bech.getD hrp.length ' ' = '1' := by
    rw [hdec, List.getD_append_right _ _ _ _ (le_refl _)]
    rw [Nat.sub_self]
    rfl
  have hcne : c ≠ '1' := by
    rw [← hgetd]
    exact hne
  have hset : bech.set hrp.length c = hrp ++ c :: rest := by
    rw [hdec, show hrp.length = hrp.length + 0 from rfl, set_append_add]
    rfl
  rw [hset]
  apply decode_none_of_rfind
  left
  have hnone : '1' ∉ hrp ++ c :: rest := by
    intro hmem
    rcases List.mem_append.mp hmem with h | h
    · exact hhrp1 h
    · rcases List.mem_cons.mp h with h | h
      · exact hcne h.symm
      · exact hrone h
  have hfind : rfind (hrp ++ c :: rest) '1' = -1 := by
    unfold rfind
    rw [(rfindAux_eq_none _ _).mpr hnone]
  rw [hfind]
  norm_num

/-- Substituting a printable, lowercase-fixed, non-charset, non-separator
character at any position after the separator of an accepted all-lowercase
string always makes decoding fail on the charset-membership guard. -/
theorem detect_data_noncharset (bech hrp : List Char) (data : List Nat) (i : Nat) (c : Char)
    (hsucc : bech32_decode bech = (some hrp, some data))
    (hlow : bech.map pylower = bech)
    (hpos : hrp.length < i) (hilen : i < bech.length)
    (hc33 : 33 ≤ c.toNat) (hc126 : c.toNat ≤ 126) (hclow : pylower c = c)
    (hc1 : c ≠ '1') (hcns : c ∉ CHARSET) :
    bech32_decode (bech.set i c) = (none, none) := by
  obtain ⟨rest, hdec, h1len, h83, hrlen, hrcs, hrone, hver, hdata, hrange⟩ :=
    bech32_decode_success hsucc
  rw [hlow] at hdec
  set j := i - hrp.length - 1 with hj
  have hblen : bech.length = hrp.length + 1 + rest.length := by
    rw [hdec]
    simp
    omega
  have hjlen : j < rest.length := by omega
  have hieq : i = hrp.length + (j + 1) := by omega
  have hset : bech.set i c = hrp ++ '1' :: rest.set j c := by
    rw [hdec, hieq, set_append_add, List.set_cons_succ]
  have hhrpsub : ∀ x ∈ hrp, x ∈ bech := by
    intro x hx
    rw [hdec]
    exact List.mem_append.mpr (Or.inl hx)
  have hhrplow : hrp.map pylower = hrp := by
    have h2 : hrp.map pylower ++ ('1' :: rest).map pylower = hrp ++ '1' :: rest := by
      rw [← List.map_append, ← hdec]
      exact hlow
    exact (List.append_inj h2 (by rw [List.length_map])).1
  have hrange' : ∀ x ∈ rest.set j c, 33 ≤ x.toNat ∧ x.toNat ≤ 126 := by
    intro x hx
    rcases List.mem_or_eq_of_mem_set hx with hx | hx
    · exact charset_mem_range x (hrcs x hx)
    · rw [hx]
      exact ⟨hc33, hc126⟩
  have hrlow' : (rest.set j c).map pylower = rest.set j c := by
    rw [List.map_set, map_id_of_fixed rest (fun x hx => charset_pylower_fixed x (hrcs x hx)),
      hclow]
  have hone' : '1' ∉ rest.set j c := by
    intro hmem
    rcases List.mem_or_eq_of_mem_set hmem with h | h
    · exact hrone h
    · exact hc1 h.symm
  have hcmem : c ∈ rest.set j c := by
    rw [List.set_eq_take_cons_drop _ hjlen]
    exact List.mem_append.mpr (Or.inr (List.mem_cons_self _ _))
  rw [hset]
  exact bech32_decode_parts_fail_charset hrp (rest.set j c)
    (fun x hx => hrange x (hhrpsub x hx)) hhrplow hrange' hrlow' hone' c hcmem hcns

/-! ### The claims -/

/-- C1: for every valid input triple — `hrp` a non-empty all-lowercase string
of length at most 83 with every character code point in [33,126], `witver` at
most 16, and `witprog` a byte sequence with length in [2,40] (exactly 20 or 32
when `witver = 0`) — `encode hrp witver witprog` succeeds, and
`decode hrp (encode hrp witver witprog)` returns exactly `(witver, witprog)`. -/
theorem C1_roundtrip (hrp : List Char) (witver : Nat) (witprog : List Nat)
    (hne : hrp ≠ []) (hlen : hrp.length ≤ 83)
    (hchars : ∀ c ∈ hrp, 33 ≤ c.toNat ∧ c.toNat ≤ 126)
    (hlow : hrp.map pylower = hrp)
    (hv : witver ≤ 16)
    (hprog : ∀ b ∈ witprog, b < 256)
    (hplen : 2 ≤ witprog.length ∧ witprog.length ≤ 40)
    (hv0 : witver = 0 → witprog.length = 20 ∨ witprog.length = 32) :
    ∃ s : List Char, encode hrp witver witprog = some s ∧
      decode hrp s = (some witver, some witprog) :=
  encode_decode_roundtrip hrp witver witprog hne hlen hchars hlow hv hprog hplen hv0

/-- Witness for C1 at the concrete input `("bc", 0, 20 zero bytes)`. -/
theorem C1_roundtrip_witness :
    ∃ s : List Char, encode "bc".toList 0 (List.replicate 20 0) = some s ∧
      decode "bc".toList s = (some 0, some (List.replicate 20 0)) :=
  C1_roundtrip "bc".toList 0 (List.replicate 20 0) (by decide) (by decide) (by decide)
    (by decide) (by decide) (by decide) (by decide) (by decide)

/-- C2 counterexample: a 93-character string (85 `q` data symbols with HRP
`a`) on which `bech32_decode` succeeds, refuting the claimed 90-character
bound. -/
theorem C2_counterexample :
    90 < ("a1qqqqqqqqqqqqqqqqqqqqqqqqqqqqqqqqqqqqqqqqqqqqqqqqqqqqqqqqqqqqqqqqqqqqqqqqqqqqqqqqqqqqqxlluef".toList).length ∧
    bech32_decode "a1qqqqqqqqqqqqqqqqqqqqqqqqqqqqqqqqqqqqqqqqqqqqqqqqqqqqqqqqqqqqqqqqqqqqqqqqqqqqqqqqqqqqqxlluef".toList ≠
      (none, none) := by
  constructor
  · decide
  · decide

/-- C2 amended: `bech32_decode` does not bound the total length by 90; the
`pos > 83` check only bounds the HRP. Every successful decode satisfies
`hrp.length ≤ 83` and `hrp.length + 7 ≤ input.length`, and nothing more. -/
theorem C2_decode_length_bounds (bech hrp : List Char) (data : List Nat)
    (h : bech32_decode bech = (some hrp, some data)) :
    hrp.length ≤ 83 ∧ hrp.length + 7 ≤ bech.length := by
  obtain ⟨rest, hdec, h1len, h83, hrlen, _, _, _, _, _⟩ := bech32_decode_success h
  have hblen : bech.length = hrp.length + 1 + rest.length := by
    have := congrArg List.length hdec
    rw [List.length_map] at this
    rw [this]
    simp
    omega
  exact ⟨h83, by omega⟩

/-- Witness for the amended C2 theorem at the standard all-zero address. -/
theorem C2_decode_length_bounds_witness :
    ("bc".toList).length ≤ 83 ∧
      ("bc".toList).length + 7 ≤ ("bc1qqqqqqqqqqqqqqqqqqqqqqqqqqqqqqqqq9e75rs".toList).length :=
  C2_decode_length_bounds "bc1qqqqqqqqqqqqqqqqqqqqqqqqqqqqqqqqq9e75rs".toList "bc".toList
    (List.replicate 33 0) (by decide)

/-- C3 counterexample: the all-zero address decodes under expected HRP `bc`,
but passing the uppercase expected HRP `BC` makes `decode` fail rather than
return the same successful result — the expected HRP is not case-normalized. -/
theorem C3_counterexample :
    decode "bc".toList "bc1qqqqqqqqqqqqqqqqqqqqqqqqqqqqqqqqq9e75rs".toList =
      (some 0, some (List.replicate 20 0)) ∧
    decode "BC".toList "bc1qqqqqqqqqqqqqqqqqqqqqqqqqqqqqqqqq9e75rs".toList = (none, none) := by
  constructor
  · decide
  · decide

/-- C3 amended: the expected-HRP check of the witness-address `decode`
compares the decoded (lowercased) HRP against the expected `hrp` exactly as
given, with no case normalization of the expected value: whenever the decoded
HRP differs from `hrp`, `decode` returns the failure sentinel. -/
theorem C3_hrp_exact_match (hrp addr : List Char)
    (h : (bech32_decode addr).1 ≠ some hrp) :
    decode hrp addr = (none, none) := by
  unfold decode
  rw [if_pos h]

/-- Witness for the amended C3 theorem: uppercase expected HRP `BC` fails. -/
theorem C3_hrp_exact_match_witness :
    decode "BC".toList "bc1qqqqqqqqqqqqqqqqqqqqqqqqqqqqqqqqq9e75rs".toList = (none, none) :=
  C3_hrp_exact_match "BC".toList "bc1qqqqqqqqqqqqqqqqqqqqqqqqqqqqqqqqq9e75rs".toList (by decide)

/-- C4 counterexample: `encode "bc" 0 (20 zero bytes)` does not return the
46-character string claimed by the specification (whose checksum is not even
valid for this codec). -/
theorem C4_counterexample :
    encode "bc".toList 0 (List.replicate 20 0) ≠
      some "bc1qqqqqqqqqqqqqqqqqqqqqqqqqqqqqqqqqqqqqc8gma6".toList := by
  decide

/-- C4 amended: `encode "bc" 0 (20 zero bytes)` returns exactly the
42-character string `bc1qqqqqqqqqqqqqqqqqqqqqqqqqqqqqqqqq9e75rs` (33 `q`
data symbols followed by the checksum `9e75rs`). -/
theorem C4_encode_zero20 :
    encode "bc".toList 0 (List.replicate 20 0) =
      some "bc1qqqqqqqqqqqqqqqqqqqqqqqqqqqqqqqqq9e75rs".toList := by
  decide

/-- C5: for every HRP and every data sequence of 5-bit values, appending
`bech32_create_checksum hrp data` makes `bech32_verify_checksum` true, i.e.
the polymod of the expanded HRP followed by data and checksum equals 1. -/
theorem C5_verify_create (hrp : List Char) (data : List Nat)
    (_hdata : ∀ d ∈ data, d ≤ 31) :
    bech32_verify_checksum hrp (data ++ bech32_create_checksum hrp data) = true :=
  verify_create hrp data

/-- Witness for C5 at HRP `bc` and data `[0, 1, 2, 3]`. -/
theorem C5_verify_create_witness :
    bech32_verify_checksum "bc".toList
      ([0, 1, 2, 3] ++ bech32_create_checksum "bc".toList [0, 1, 2, 3]) = true :=
  C5_verify_create "bc".toList [0, 1, 2, 3] (by decide)

/-- C6: for every byte sequence, converting 8-bit to 5-bit groups with
padding and back with strict unpadding succeeds in both directions and
returns exactly the original bytes (for every leftover-bit count 0 to 4). -/
theorem C6_convertbits_roundtrip (bytes : List Nat) (h : ∀ b ∈ bytes, b < 256) :
    ∃ L : List Nat, convertbits bytes 8 5 true = some L ∧
      convertbits L 5 8 false = some bytes := by
  have h8 : ∀ b ∈ bytes, b < 2 ^ 8 := by
    intro b hb
    have := h b hb
    omega
  obtain ⟨L, hL, hbound, hlen, hval⟩ := convertbits_8_5 bytes h8
  exact ⟨L, hL,
    convertbits_5_8 L bytes _ (Nat.mod_lt _ (by norm_num)) hbound h8 hlen hval⟩

/-- Witness for C6 at the byte list `[1, 2, 3]` (leftover of 4 bits). -/
theorem C6_convertbits_roundtrip_witness :
    ∃ L : List Nat, convertbits [1, 2, 3] 8 5 true = some L ∧
      convertbits L 5 8 false = some [1, 2, 3] :=
  C6_convertbits_roundtrip [1, 2, 3] (by decide)

/-- C7: the separator-position acceptance window of `bech32_decode` is
exactly [1, 83]: an otherwise-valid string whose last separator sits at index
83 decodes successfully, while a last separator at index 84 or greater, at
index 0, or absent (rfind gives -1) is always rejected. -/
theorem C7_separator_boundary :
    (∀ hrp rest : List Char, hrp.length = 83 →
      (∀ c ∈ hrp, 33 ≤ c.toNat ∧ c.toNat ≤ 126) → hrp.map pylower = hrp →
      (∀ c ∈ rest, c ∈ CHARSET) → 6 ≤ rest.length →
      bech32_verify_checksum hrp (rest.map (fun x => CHARSET.indexOf x)) = true →
      rfind (hrp ++ '1' :: rest) '1' = (83 : Int) ∧
        bech32_decode (hrp ++ '1' :: rest) ≠ (none, none)) ∧
    (∀ bech : List Char, 84 ≤ rfind bech '1' → bech32_decode bech = (none, none)) ∧
    (∀ bech : List Char, rfind bech '1' < 1 → bech32_decode bech = (none, none)) := by
  refine ⟨?_, ?_, ?_⟩
  · intro hrp rest h83 hchars hlow hcs h6 hver
    have hone : '1' ∉ rest := fun hm => one_not_in_charset (hcs _ hm)
    have hne : hrp ≠ [] := by
      intro hemp
      rw [hemp] at h83
      simp at h83
    constructor
    · rw [rfind_append_one hrp rest hone, h83]
      rfl
    · rw [bech32_decode_parts hrp rest hne (le_of_eq h83) hchars hlow hcs h6, if_pos hver]
      simp
  · intro bech h
    exact decode_none_of_rfind bech (Or.inr (by omega))
  · intro bech h
    exact decode_none_of_rfind bech (Or.inl h)

/-- Witness for C7: a 90-character string with separator at index 83 decodes;
separator at index 84 and a separator-free string are rejected. -/
theorem C7_separator_boundary_witness :
    (rfind (List.replicate 83 'a' ++ '1' :: "7vhfd0".toList) '1' = (83 : Int) ∧
      bech32_decode (List.replicate 83 'a' ++ '1' :: "7vhfd0".toList) ≠ (none, none)) ∧
    bech32_decode (List.replicate 84 'a' ++ '1' :: "qqqqqq".toList) = (none, none) ∧
    bech32_decode "qqqqqqq".toList = (none, none) :=
  ⟨C7_separator_boundary.1 (List.replicate 83 'a') "7vhfd0".toList (by decide) (by decide)
      (by decide) (by decide) (by decide) (by decide),
    C7_separator_boundary.2.1 _ (by decide),
    C7_separator_boundary.2.2 _ (by decide)⟩

/-- C8 counterexample: `a19267542334` decodes successfully, and flipping its
first character (its only letter) to the different character `A` yields a
string that still decodes successfully, to the same result — so flipping a
single character does not always make `bech32_decode` fail. -/
theorem C8_counterexample :
    bech32_decode "a19267542334".toList = (some "a".toList, some [5, 10, 26, 30]) ∧
    'A' ≠ "a19267542334".toList.getD 0 ' ' ∧
    bech32_decode ("a19267542334".toList.set 0 'A') =
      (some "a".toList, some [5, 10, 26, 30]) :=
  ⟨by decide, by decide, by decide⟩

/-- C8 amended: flipping a single character of a valid (all-lowercase)
encoded string is detected except when it only changes letter case: any
replacement by a character outside the printable window [33,126] is rejected;
and for a case-preserving printable replacement by a different character,
decoding fails at every HRP position (the checksum detects the two-symbol
expansion change), at the separator when the HRP contains no other separator
character (the result has no separator left), and at every post-separator
position as long as the new character is not the separator character itself
(charset guard or checksum). The remaining shapes are not always detected:
the case flip of the counterexample decodes to the same result. -/
theorem C8_substitution_detected (bech hrp : List Char) (data : List Nat) (i : Nat) (c : Char)
    (hsucc : bech32_decode bech = (some hrp, some data))
    (hlow : bech.map pylower = bech)
    (hilen : i < bech.length)
    (hne : c ≠ bech.getD i ' ') :
    (c.toNat < 33 ∨ 126 < c.toNat → bech32_decode (bech.set i c) = (none, none)) ∧
    (33 ≤ c.toNat → c.toNat ≤ 126 → pylower c = c →
      (i < hrp.length → bech32_decode (bech.set i c) = (none, none)) ∧
      (i = hrp.length → '1' ∉ hrp → bech32_decode (bech.set i c) = (none, none)) ∧
      (hrp.length < i → c ≠ '1' → bech32_decode (bech.set i c) = (none, none))) := by
  refine ⟨?_, ?_⟩
  · intro hbad
    have hmem : c ∈ bech.set i c := by
      rw [List.set_eq_take_cons_drop _ hilen]
      exact List.mem_append.mpr (Or.inr (List.mem_cons_self _ _))
    simp only [bech32_decode]
    rw [if_pos (Or.inl ⟨c, hmem, hbad⟩)]
  · intro h33 h126 hclow
    refine ⟨?_, ?_, ?_⟩
    · intro hpos
      exact detect_hrp_substitution bech hrp data i c hsucc hlow hpos h33 h126 hclow hne
    · intro hieq hhrp1
      subst hieq
      exact detect_separator_removal bech hrp data c hsucc hlow hhrp1 hne
    · intro hpos hc1
      by_cases hc : c ∈ CHARSET
      · exact detect_data_substitution bech hrp data i c hsucc hlow hpos hilen hc hne
      · exact detect_data_noncharset bech hrp data i c hsucc hlow hpos hilen
          h33 h126 hclow hc1 hc

/-- Witness for the amended C8 theorem on `a19267542334` (HRP `a`, separator
at index 1): replacing a character by the out-of-range space fails, replacing
the HRP character `a` by `b` fails, replacing the separator by `q` fails,
and replacing the data symbol at index 2 by the charset character `q` or the
non-charset character `b` fails. -/
theorem C8_substitution_detected_witness :
    bech32_decode ("a19267542334".toList.set 0 ' ') = (none, none) ∧
    bech32_decode ("a19267542334".toList.set 0 'b') = (none, none) ∧
    bech32_decode ("a19267542334".toList.set 1 'q') = (none, none) ∧
    bech32_decode ("a19267542334".toList.set 2 'q') = (none, none) ∧
    bech32_decode ("a19267542334".toList.set 2 'b') = (none, none) :=
  ⟨(C8_substitution_detected "a19267542334".toList "a".toList [5, 10, 26, 30] 0 ' '
      (by decide) (by decide) (by decide) (by decide)).1 (by decide),
   ((C8_substitution_detected "a19267542334".toList "a".toList [5, 10, 26, 30] 0 'b'
      (by decide) (by decide) (by decide) (by decide)).2
      (by decide) (by decide) (by decide)).1 (by decide),
   ((C8_substitution_detected "a19267542334".toList "a".toList [5, 10, 26, 30] 1 'q'
      (by decide) (by decide) (by decide) (by decide)).2
      (by decide) (by decide) (by decide)).2.1 (by decide) (by decide),
   ((C8_substitution_detected "a19267542334".toList "a".toList [5, 10, 26, 30] 2 'q'
      (by decide) (by decide) (by decide) (by decide)).2
      (by decide) (by decide) (by decide)).2.2 (by decide) (by decide),
   ((C8_substitution_detected "a19267542334".toList "a".toList [5, 10, 26, 30] 2 'b'
      (by decide) (by decide) (by decide) (by decide)).2
      (by decide) (by decide) (by decide)).2.2 (by decide) (by decide)⟩

/-- C9: the decode path is total and safe: `bech32_decode` always returns
either the paired failure sentinel or a fully successful pair, the
witness-address `decode` does likewise, and the internal assertion of
`decode` (the data component is present whenever the returned HRP matches)
can never fire. -/
theorem C9_decode_total_no_assert :
    (∀ addr : List Char, bech32_decode addr = (none, none) ∨
      ∃ (h : List Char) (d : List Nat), bech32_decode addr = (some h, some d)) ∧
    (∀ hrp addr : List Char, decode hrp addr = (none, none) ∨
      ∃ (v : Nat) (p : List Nat), decode hrp addr = (some v, some p)) ∧
    (∀ hrp addr : List Char, (bech32_decode addr).1 = some hrp →
      (bech32_decode addr).2 ≠ none) := by
  refine ⟨bech32_decode_cases, decode_cases, ?_⟩
  intro hrp addr h1
  rcases bech32_decode_cases addr with hb | ⟨h, d, hb⟩
  · rw [hb] at h1
    exact Option.noConfusion h1
  · rw [hb]
    simp

/-- Witness for C9: at the standard all-zero address the data component of a
successful decode is present. -/
theorem C9_decode_total_no_assert_witness :
    (bech32_decode "bc1qqqqqqqqqqqqqqqqqqqqqqqqqqqqqqqqq9e75rs".toList).2 ≠ none :=
  C9_decode_total_no_assert.2.2 "bc".toList _ (by decide)

/-- C10: whenever `bech32_decode` succeeds, the returned HRP is non-empty, of
length at most 83, entirely lowercase (no code point in [65,90]) with every
code point in [33,126], and every returned data value is in [0,31]. -/
theorem C10_decode_output_invariant (bech hrp : List Char) (data : List Nat)
    (h : bech32_decode bech = (some hrp, some data)) :
    hrp ≠ [] ∧ hrp.length ≤ 83 ∧
    (∀ c ∈ hrp, 33 ≤ c.toNat ∧ c.toNat ≤ 126 ∧ ¬(65 ≤ c.toNat ∧ c.toNat ≤ 90)) ∧
    (∀ d ∈ data, d ≤ 31) := by
  obtain ⟨rest, hdec, h1len, h83, hrlen, hrcs, hrone, hver, hdata, hrange⟩ :=
    bech32_decode_success h
  refine ⟨?_, h83, ?_, ?_⟩
  · intro hemp
    rw [hemp] at h1len
    simp at h1len
  · intro cc hcc
    have hmem : cc ∈ bech.map pylower := by
      rw [hdec]
      exact List.mem_append.mpr (Or.inl hcc)
    obtain ⟨orig, horig, rfl⟩ := List.mem_map.mp hmem
    have hr := hrange orig horig
    obtain ⟨hr1, hr2⟩ := pylower_mem_range hr.1 hr.2
    exact ⟨hr1, hr2, pylower_not_upper orig⟩
  · intro d hd
    rw [hdata] at hd
    have hd2 := List.take_subset _ _ hd
    obtain ⟨y, hy, rfl⟩ := List.mem_map.mp hd2
    have := charset_indexOf_lt (hrcs y hy)
    omega

/-- Witness for C10 at the standard all-zero address. -/
theorem C10_decode_output_invariant_witness :
    "bc".toList ≠ [] ∧ ("bc".toList).length ≤ 83 ∧
    (∀ c ∈ "bc".toList, 33 ≤ c.toNat ∧ c.toNat ≤ 126 ∧ ¬(65 ≤ c.toNat ∧ c.toNat ≤ 90)) ∧
    (∀ d ∈ List.replicate 33 (0 : Nat), d ≤ 31) :=
  C10_decode_output_invariant "bc1qqqqqqqqqqqqqqqqqqqqqqqqqqqqqqqqq9e75rs".toList
    "bc".toList (List.replicate 33 0) (by decide)

end Bech32
